import Mathlib

/-!
Verification development for the DocuMind repository: a shallow embedding of
the agent's tool-routing loop (`src/agent/agent.py`) and its three filesystem
primitives (`src/functions/get_file_info.py`, `read_file.py`, `write_file.py`),
together with proofs of the specified properties.

Paths are modelled as strings over their character lists; the filesystem is a
finite tree of named nodes.  Python standard-library path functions used by
the source (`os.path.abspath`, `os.path.expanduser`, `os.path.normpath`,
`os.path.join`, `os.path.split`, `os.path.dirname`, `os.path.splitext`) are
embedded following the CPython `posixpath` implementations, since the code
runs them on a POSIX host.
-/

/-! ## Path strings

`splitOnSlash` embeds Python `str.split('/')` (splitting on the single
separator character, so `""` splits to `[""]` and `"/a"` to `["", "a"]`).
`joinSlash` embeds `'/'.join`. -/

def splitOnSlash : List Char → List (List Char)
  | [] => [[]]
  | c :: rest =>
    if c = '/' then [] :: splitOnSlash rest
    else
      match splitOnSlash rest with
      | [] => [[c]]
      | h :: t => (c :: h) :: t

def joinSlash : List (List Char) → List Char
  | [] => []
  | [c] => c
  | c :: rest => c ++ '/' :: joinSlash rest

/-- The body of the `for comp in comps` loop of CPython `posixpath.normpath`:
skip `''` and `'.'` components, push ordinary components, and pop on `'..'`
except at the front of a relative path or after an unresolved `'..'`. -/
def normStep (slashes : Nat) (acc : List (List Char)) (comp : List Char) : List (List Char) :=
  if comp = [] ∨ comp = ['.'] then acc
  else if comp ≠ ['.', '.'] ∨ (slashes = 0 ∧ acc = []) ∨ acc.getLast? = some ['.', '.'] then
    acc ++ [comp]
  else acc.dropLast

/-- `posixpath.isabs`: the path starts with a slash. -/
def isabs (p : List Char) : Bool := p.head? = some '/'

/-- The `initial_slashes` count of CPython `posixpath.normpath`: 1 for a
leading slash, except that exactly two leading slashes count as 2 (POSIX
grants an initial `//` special meaning). -/
def leadingSlashes (p : List Char) : Nat :=
  if isabs p then
    if (List.replicate 2 '/').isPrefixOf p ∧ ¬ (List.replicate 3 '/').isPrefixOf p then 2
    else 1
  else 0

/-- CPython `posixpath.normpath`: collapse `//`, `.` and `..` components,
preserving a double leading slash. -/
def normpathChars (p : List Char) : List Char :=
  if p = [] then ['.']
  else
    let slashes := leadingSlashes p
    let comps := splitOnSlash p
    let newComps := comps.foldl (normStep slashes) []
    let out := List.replicate slashes '/' ++ joinSlash newComps
    if out = [] then ['.'] else out

/-- CPython `posixpath.join` restricted to two arguments, as used by
`abspath` and by `get_file_info`'s `os.path.join(norm, name)`. -/
def join2 (a b : List Char) : List Char :=
  if isabs b then b
  else if a = [] ∨ a.getLast? = some '/' then a ++ b
  else a ++ '/' :: b

/-- The process environment the path functions read: the current working
directory (`os.getcwd()`), the `HOME` directory resolved for `~` (absent when
neither the environment variable nor the password database yields one, in
which case `expanduser` returns its input unchanged), and the password-database
lookup used for `~user`. -/
structure Env where
  cwd : String
  home : Option String := none
  user_homes : String → Option String := fun _ => none

/-- CPython `posixpath.expanduser`: replace a leading `~` or `~user` with the
corresponding home directory (with trailing slashes stripped), returning the
path unchanged when the lookup fails; an empty result becomes `/`. -/
def expanduserChars (env : Env) (p : List Char) : List Char :=
  match p with
  | '~' :: rest =>
    let name := rest.takeWhile (· ≠ '/')
    let tail := rest.dropWhile (· ≠ '/')
    let userhome? := if name = [] then env.home else env.user_homes (String.mk name)
    match userhome? with
    | none => p
    | some uh =>
      let stripped := ((uh.data.reverse.dropWhile (· = '/')).reverse)
      match stripped ++ tail with
      | [] => ['/']
      | r => r
  | _ => p

/-- CPython `posixpath.abspath`: join a relative path onto the current
working directory, then normalize. -/
def abspathChars (env : Env) (p : List Char) : List Char :=
  let q := if ¬ isabs p then join2 env.cwd.data p else p
  normpathChars q

/-- `normalize_path` from `src/functions/_utils.py`:
`os.path.abspath(os.path.expanduser(path))`. -/
def normalize_path (env : Env) (path : String) : String :=
  String.mk (abspathChars env (expanduserChars env path.data))

/-- CPython `posixpath.split`: break off the final component; the head keeps
its trailing slashes only when it consists of slashes alone. -/
def splitPath (p : List Char) : List Char × List Char :=
  let tail := (p.reverse.takeWhile (· ≠ '/')).reverse
  let headRaw := p.take (p.length - tail.length)
  let head :=
    if headRaw ≠ [] ∧ ¬ headRaw.all (· = '/') then
      (headRaw.reverse.dropWhile (· = '/')).reverse
    else headRaw
  (head, tail)

/-- CPython `posixpath.dirname` (the head of `split`). -/
def dirnameChars (p : List Char) : List Char := (splitPath p).1

/-- `os.path.dirname` on strings. -/
def dirname (p : String) : String := String.mk (dirnameChars p.data)

/-- The component list a path resolves through: the non-empty pieces between
slashes.  All paths handed to the filesystem model by the embedded code are
already normalized, so this is exactly their component decomposition. -/
def pathComponents (p : String) : List String :=
  ((splitOnSlash p.data).filter (· ≠ [])).map String.mk

/-! ## Filesystem model

A finite tree of named nodes.  `other` stands for directory entries for
which both `os.path.isfile` and `os.path.isdir` are false (broken symbolic
links, sockets, device files, ...); the listing code skips them and opening
them for writing is modelled as an `OSError`.  A symbolic link whose target
is a regular file or directory behaves, under `os.path.isfile`/`isdir`, like
its target and is therefore modelled as that target. -/

inductive FsNode where
  | file (content : String)
  | dir (children : List (String × FsNode))
  | other
deriving Repr

/-- The visible filesystem state: the tree rooted at `/`, plus the set of
paths on which an `os.path.getsize` call would raise `OSError` (a failure
the listing code catches per entry). -/
structure FS where
  root : FsNode
  size_fails : List String := []

/-- Python exceptions the embedded code can raise.  All constructors except
`keyError` are subclasses of `OSError` in Python; none of the others is a
subclass of `FileNotFoundError`, which is the only exception the router's
listing branch catches. -/
inductive PyExc where
  | fileNotFoundError (msg : String)
  | notADirectoryError (msg : String)
  | isADirectoryError (msg : String)
  | fileExistsError (msg : String)
  | oserror (msg : String)
  | keyError (key : String)
deriving Repr, DecidableEq

/-- Walk the tree along a component list.  A `lookup` into a directory's
children takes the first binding, and any traversal through a non-directory
fails. -/
def resolve (n : FsNode) (comps : List String) : Option FsNode :=
  match comps with
  | [] => some n
  | c :: rest =>
    match n with
    | FsNode.dir ch =>
      match ch.lookup c with
      | some child => resolve child rest
      | none => none
    | _ => none

/-- Resolve an (already normalized) path string against the filesystem. -/
def resolvePath (fs : FS) (p : String) : Option FsNode :=
  resolve fs.root (pathComponents p)

/-- `os.path.exists`. -/
def pathExists (fs : FS) (p : String) : Bool := (resolvePath fs p).isSome

/-- `os.path.isdir`. -/
def isDir (fs : FS) (p : String) : Bool :=
  match resolvePath fs p with
  | some (FsNode.dir _) => true
  | _ => false

/-- `os.path.isfile`. -/
def isFile (fs : FS) (p : String) : Bool :=
  match resolvePath fs p with
  | some (FsNode.file _) => true
  | _ => false

/-- `os.listdir` on a directory path: the names of its immediate children,
in on-disk (unsorted) order.  Only called by the code after an `isdir`
check, so the non-directory case is immaterial and yields `[]`. -/
def listdir (fs : FS) (p : String) : List String :=
  match resolvePath fs p with
  | some (FsNode.dir ch) => ch.map (·.1)
  | _ => []

/-- `os.path.getsize`: the on-disk byte count of a file (contents are
written UTF-8 encoded), or an `OSError` for paths in `size_fails` or
unresolvable paths.  Directories report their block size; the code never
asks, so `0` stands in. -/
def getsize (fs : FS) (p : String) : Except PyExc Nat :=
  if p ∈ fs.size_fails then Except.error (PyExc.oserror s!"stat failed: {p}")
  else
    match resolvePath fs p with
    | some (FsNode.file c) => Except.ok c.utf8ByteSize
    | some _ => Except.ok 0
    | none => Except.error (PyExc.fileNotFoundError s!"No such file or directory: {p}")

/-- Replace the node at a component path (used by overwriting `open(p, "w")`). -/
def replaceAt (root : FsNode) (comps : List String) (newNode : FsNode) : FsNode :=
  match comps with
  | [] => newNode
  | c :: rest =>
    match root with
    | FsNode.dir ch =>
      FsNode.dir (ch.map fun e => if e.1 = c then (e.1, replaceAt e.2 rest newNode) else e)
    | n => n

/-- Append a fresh child under the directory at a component path (used by
creating `open(p, "w")` and by `os.mkdir`). -/
def addAt (root : FsNode) (pc : List String) (name : String) (newNode : FsNode) : FsNode :=
  match pc with
  | [] =>
    match root with
    | FsNode.dir ch => FsNode.dir (ch ++ [(name, newNode)])
    | n => n
  | c :: rest =>
    match root with
    | FsNode.dir ch =>
      FsNode.dir (ch.map fun e => if e.1 = c then (e.1, addAt e.2 rest name newNode) else e)
    | n => n

/-- `os.mkdir`: create a directory, failing if the path exists, if its parent
is missing, or if its parent is not a directory. -/
def mkdir (fs : FS) (p : String) : Except PyExc FS :=
  let comps := pathComponents p
  match resolve fs.root comps with
  | some _ => Except.error (PyExc.fileExistsError s!"File exists: {p}")
  | none =>
    match resolve fs.root comps.dropLast with
    | some (FsNode.dir _) =>
      match comps.getLast? with
      | some leaf =>
        Except.ok { fs with root := addAt fs.root comps.dropLast leaf (FsNode.dir []) }
      | none => Except.error (PyExc.oserror p)
    | some _ => Except.error (PyExc.notADirectoryError s!"Not a directory: {p}")
    | none => Except.error (PyExc.fileNotFoundError s!"No such file or directory: {p}")

/-- `open(p, "w")` followed by writing `content`: overwrite an existing
regular file, or create a fresh file under an existing parent directory;
opening a directory raises `IsADirectoryError`, and a missing or
non-directory parent raises the corresponding `OSError`. -/
def openWrite (fs : FS) (p : String) (content : String) : Except PyExc FS :=
  let comps := pathComponents p
  match resolve fs.root comps with
  | some (FsNode.dir _) => Except.error (PyExc.isADirectoryError s!"Is a directory: {p}")
  | some (FsNode.file _) =>
    Except.ok { fs with root := replaceAt fs.root comps (FsNode.file content) }
  | some FsNode.other => Except.error (PyExc.oserror s!"cannot open for writing: {p}")
  | none =>
    match resolve fs.root comps.dropLast with
    | some (FsNode.dir _) =>
      match comps.getLast? with
      | some leaf =>
        Except.ok { fs with root := addAt fs.root comps.dropLast leaf (FsNode.file content) }
      | none => Except.error (PyExc.oserror p)
    | some _ => Except.error (PyExc.notADirectoryError s!"Not a directory: {p}")
    | none => Except.error (PyExc.fileNotFoundError s!"No such file or directory: {p}")

/-- CPython `os.makedirs(name, exist_ok)` (the recursion bottoms out on a
fuel counter that the caller sets above the path length; each recursive call
strips at least the final component, so the fuel is never exhausted). -/
def makedirsAux (exist_ok : Bool) : Nat → FS → List Char → Except PyExc Unit × FS
  | 0, fs, _ => (Except.error (PyExc.oserror "recursion limit"), fs)
  | fuel + 1, fs, name =>
    let st0 := splitPath name
    let st1 := if st0.2 = [] then splitPath st0.1 else st0
    let head := st1.1
    let tail := st1.2
    let rec1 : (Except PyExc Unit × FS) × Bool :=
      if head ≠ [] ∧ tail ≠ [] ∧ ¬ pathExists fs (String.mk head) then
        let r := makedirsAux exist_ok fuel fs head
        match r with
        | (Except.error (PyExc.fileExistsError _), f) => (((Except.ok ()), f), true)
        | other => (other, true)
      else (((Except.ok ()), fs), false)
    match rec1 with
    | ((Except.error e, fs1), _) => (Except.error e, fs1)
    | ((Except.ok _, fs1), entered) =>
      if entered ∧ tail = ['.'] then (Except.ok (), fs1)
      else
        match mkdir fs1 (String.mk name) with
        | Except.ok fs2 => (Except.ok (), fs2)
        | Except.error e =>
          if exist_ok ∧ isDir fs1 (String.mk name) then (Except.ok (), fs1)
          else (Except.error e, fs1)

/-- `os.makedirs` at the usual entry point. -/
def makedirs (fs : FS) (exist_ok : Bool) (name : String) : Except PyExc Unit × FS :=
  makedirsAux exist_ok (name.length + 1) fs name.data

/-! ## `os.path.splitext` and the extension field -/

/-- CPython `posixpath.splitext`, extension part, for separator-free names
(the only arguments the code passes are `os.listdir` entries, which never
contain `/`): the suffix from the last dot on, provided some character
before that dot is not itself a dot (so dotfiles have no extension). -/
def splitextExt (name : List Char) : List Char :=
  if (name.reverse.takeWhile (· ≠ '.')).length = name.length then []
  else if (name.reverse.drop ((name.reverse.takeWhile (· ≠ '.')).length + 1)).any (· ≠ '.')
  then '.' :: (name.reverse.takeWhile (· ≠ '.')).reverse
  else []

/-- The `"extension"` field of a listing item:
`ext[1:] if ext.startswith(".") else ext or None` in `get_file_info`. -/
def extensionField (ext : List Char) : Option String :=
  if ext.head? = some '.' then some (String.mk (ext.drop 1))
  else if ext = [] then none
  else some (String.mk ext)

/-! ## Sorting by name

Python `sorted` on strings: a stable sort under code-point lexicographic
comparison.  Lean's built-in `String` order is not kernel-reducible, so the
comparison is spelled out on character lists. -/

def lexLt : List Char → List Char → Bool
  | [], [] => false
  | [], _ :: _ => true
  | _ :: _, [] => false
  | a :: as, b :: bs => if a < b then true else if a = b then lexLt as bs else false

/-- Code-point lexicographic `<` on strings, as Python compares `str`. -/
def strLt (a b : String) : Bool := lexLt a.data b.data

/-- Stable insertion of one name into a sorted list (insert before the first
element not strictly below it). -/
def insertName (x : String) : List String → List String
  | [] => [x]
  | y :: ys => if strLt y x then y :: insertName x ys else x :: y :: ys

/-- `sorted` on a list of names. -/
def sortNames (l : List String) : List String := l.foldr insertName []

/-! ## The three filesystem primitives (`src/functions/`) -/

/-- `os.path.join` on strings. -/
def joinStr (a b : String) : String := String.mk (join2 a.data b.data)

/-- One child descriptor of a directory listing, as built by
`get_file_info`.  `typ` carries the JSON `"type"` key (`"file"` or
`"directory"`). -/
structure FileItem where
  name : String
  path : String
  typ : String
  extension : Option String
  size : Option Nat
deriving Repr, DecidableEq

/-- The result dictionary of `get_file_info`:
`{"current_path": ..., "items": [...]}`. -/
structure FileInfo where
  current_path : String
  items : List FileItem
deriving Repr, DecidableEq

/-- The body of the `for name in sorted(os.listdir(norm))` loop of
`get_file_info`: a directory child, a file child (with extension and a
per-entry size that degrades to `None` when `os.path.getsize` raises
`OSError`), or nothing for entries of any other kind. -/
def listItem (fs : FS) (norm name : String) : Option FileItem :=
  let child_path := joinStr norm name
  if isDir fs child_path then
    some { name := name, path := child_path, typ := "directory",
           extension := none, size := none }
  else if isFile fs child_path then
    let ext := splitextExt name.data
    let size :=
      match getsize fs child_path with
      | Except.ok n => some n
      | Except.error _ => none
    some { name := name, path := child_path, typ := "file",
           extension := extensionField ext, size := size }
  else none

/-- `get_file_info` from `src/functions/get_file_info.py`. -/
def get_file_info (env : Env) (fs : FS) (path : String) : Except PyExc FileInfo :=
  let norm := normalize_path env path
  if ¬ pathExists fs norm then
    Except.error (PyExc.fileNotFoundError s!"Path does not exist: {norm}")
  else if ¬ isDir fs norm then
    Except.error (PyExc.notADirectoryError s!"Path is not a directory: {norm}")
  else
    let items := (sortNames (listdir fs norm)).filterMap (listItem fs norm)
    Except.ok { current_path := norm, items := items }

/-- `read_file` from `src/functions/read_file.py` (the fixed default
encoding is `utf-8`; contents are modelled as the decoded text). -/
def read_file (env : Env) (fs : FS) (path : String) : Except PyExc String :=
  let norm := normalize_path env path
  if ¬ pathExists fs norm then
    Except.error (PyExc.fileNotFoundError s!"File does not exist: {norm}")
  else if ¬ isFile fs norm then
    Except.error (PyExc.isADirectoryError s!"Not a file: {norm}")
  else
    match resolvePath fs norm with
    | some (FsNode.file c) => Except.ok c
    | _ => Except.error (PyExc.oserror norm)

/-- `write_file` from `src/functions/write_file.py`: create missing parent
directories (`os.makedirs(parent, exist_ok=True)`), write the content, and
return `f"Wrote {len(content)} bytes to {norm}"`.  Note that Python
`len(content)` counts code points of the text, while the file receives its
UTF-8 encoding. -/
def write_file (env : Env) (fs : FS) (path content : String) :
    Except PyExc (String × FS) :=
  let norm := normalize_path env path
  let parent := dirname norm
  let afterMk : Except PyExc FS :=
    if parent ≠ "" ∧ ¬ pathExists fs parent then
      match makedirs fs true parent with
      | (Except.ok _, fs1) => Except.ok fs1
      | (Except.error e, _) => Except.error e
    else Except.ok fs
  match afterMk with
  | Except.error e => Except.error e
  | Except.ok fs1 =>
    match openWrite fs1 norm content with
    | Except.error e => Except.error e
    | Except.ok fs2 => Except.ok (s!"Wrote {content.length} bytes to {norm}", fs2)

/-! ## The tool router and session state (`src/agent/agent.py`)

The `Agent` dataclass fields `model`, `verbose` and `client` only select the
model identifier, gate debug printing and hold the network handle; they do
not influence any routed result and are not part of the state model. -/

/-- The mutable session state of the `Agent` dataclass. -/
structure Agent where
  allow_writes : Bool := false
  discovered_files : Finset String := ∅
  discovered_dirs : Finset String := ∅
deriving DecidableEq

/-- The JSON argument mapping of a tool call; each of the two keys the
schemas declare may be present or absent. -/
structure Args where
  path? : Option String := none
  content? : Option String := none
deriving Repr, DecidableEq

/-- The loop body of `Agent._record_discovery`: insert one item's normalized
path into the set matching its kind. -/
def discoveryStep (env : Env) (s : Agent) (item : FileItem) : Agent :=
  let p := normalize_path env item.path
  if item.typ = "directory" then
    { s with discovered_dirs := insert p s.discovered_dirs }
  else if item.typ = "file" then
    { s with discovered_files := insert p s.discovered_files }
  else s

/-- `Agent._record_discovery`: insert the normalized listed directory into
the directory set and each item's normalized path into the set matching its
kind. -/
def record_discovery (env : Env) (st : Agent) (info : FileInfo) : Agent :=
  let st1 :=
    if info.current_path ≠ "" then
      { st with discovered_dirs :=
          insert (normalize_path env info.current_path) st.discovered_dirs }
    else st
  info.items.foldl (discoveryStep env) st1

/-- The `allowed_tail` character set of the listing branch of
`Agent._execute_tool`: ASCII letters, digits, and `. _ - / ~ ` (space). -/
def allowedTailChar (c : Char) : Bool :=
  c.isAlpha || c.isDigit || c = '.' || c = '_' || c = '-' || c = '/' || c = '~' || c = ' '

/-- The `while raw_path and raw_path[-1] not in allowed_tail` loop: drop the
last character while it is disallowed.  The loop removes at most one
character per iteration, so fuel equal to the length covers every run. -/
def stripTailAux : Nat → List Char → List Char
  | 0, l => l
  | fuel + 1, l =>
    match l.getLast? with
    | some c => if ¬ allowedTailChar c then stripTailAux fuel l.dropLast else l
    | none => l

/-- The defensive trailing-character cleanup the router applies to the
listing path argument. -/
def stripTrailing (s : String) : String := String.mk (stripTailAux s.length s.data)

/-- The structured JSON payloads `Agent._execute_tool` returns as tool
results (serialization by `json.dumps` is abstracted to the structure). -/
inductive ToolResult where
  | listing (info : FileInfo)
  | errorNotFound (message suggestion path : String)
  | errorFileNotConfirmed (message path : String)
  | errorWriteNotAllowed (message : String)
  | readOk (path content : String)
  | writeOk (message : String)
  | errorUnknownTool
deriving Repr, DecidableEq

/-- `Agent._execute_tool`: route one tool call.  A `Except.error` result is
an exception that escapes the router uncaught (the listing branch catches
only `FileNotFoundError`; the read and write branches catch nothing). -/
def execute_tool (env : Env) (st : Agent) (fs : FS) (name : String) (args : Args) :
    Except PyExc ToolResult × Agent × FS :=
  if name = "write_file" ∧ ¬ st.allow_writes then
    (Except.ok (ToolResult.errorWriteNotAllowed
      "Write operations are disabled. Enable allow_writes to proceed."), st, fs)
  else if name = "get_file_info" then
    let raw_path := stripTrailing (args.path?.getD "")
    match get_file_info env fs raw_path with
    | Except.ok info =>
      (Except.ok (ToolResult.listing info), record_discovery env st info, fs)
    | Except.error (PyExc.fileNotFoundError m) =>
      (Except.ok (ToolResult.errorNotFound m
        "The requested path does not exist. Please verify the path and try again."
        raw_path), st, fs)
    | Except.error e => (Except.error e, st, fs)
  else if name = "read_file" then
    match args.path? with
    | none => (Except.error (PyExc.keyError "path"), st, fs)
    | some p =>
      let norm := normalize_path env p
      if norm ∉ st.discovered_files then
        (Except.ok (ToolResult.errorFileNotConfirmed
          "Attempted to read a file that has not been confirmed via get_file_info."
          norm), st, fs)
      else
        match read_file env fs norm with
        | Except.ok content => (Except.ok (ToolResult.readOk norm content), st, fs)
        | Except.error e => (Except.error e, st, fs)
  else if name = "write_file" then
    match args.path? with
    | none => (Except.error (PyExc.keyError "path"), st, fs)
    | some p =>
      match args.content? with
      | none => (Except.error (PyExc.keyError "content"), st, fs)
      | some c =>
        match write_file env fs p c with
        | Except.ok (msg, fs2) =>
          (Except.ok (ToolResult.writeOk msg),
           { st with discovered_files :=
               insert (normalize_path env p) st.discovered_files }, fs2)
        | Except.error e => (Except.error e, st, fs)
  else (Except.ok ToolResult.errorUnknownTool, st, fs)

/-! ## The conversation driver (`Agent.run`) -/

/-- One tool-call request issued by the model. -/
structure ToolCallReq where
  id : String
  name : String
  args : Args
deriving Repr, DecidableEq

/-- A transcript message (tool-result content kept structured; `json.dumps`
serialization is abstracted). -/
inductive Message where
  | system (content : String)
  | user (content : String)
  | assistant (content : String) (tool_calls : List ToolCallReq)
  | tool (tool_call_id : String) (name : String) (content : ToolResult)
deriving Repr, DecidableEq

/-- One chat-completion response: optional text plus the requested tool
calls (`msg.tool_calls or []` makes a missing list and an empty list
indistinguishable, as in the driver). -/
structure ModelResponse where
  content : Option String := none
  tool_calls : List ToolCallReq := []

/-- Stand-in for the fixed system instruction text; its content is
configuration the spec excludes (§1 non-goals) and nothing downstream reads
it. -/
def SYSTEM_PROMPT : String :=
  "You are an AI documentation agent responsible for maintaining high-quality, professional documentation for a codebase."

/-- The inner `for tc in tool_calls` loop of `Agent.run`: execute each
requested call in order, appending one tool message per completed call; an
uncaught exception aborts the round (and the whole run). -/
def exec_round (env : Env) :
    Agent → FS → List Message → List ToolCallReq →
    Except PyExc Unit × Agent × FS × List Message
  | st, fs, msgs, [] => (Except.ok (), st, fs, msgs)
  | st, fs, msgs, tc :: rest =>
    match execute_tool env st fs tc.name tc.args with
    | (Except.ok r, st1, fs1) =>
      exec_round env st1 fs1 (msgs ++ [Message.tool tc.id tc.name r]) rest
    | (Except.error e, st1, fs1) => (Except.error e, st1, fs1, msgs)

/-- The fixed fallback answer of `Agent.run`. -/
def max_steps_message : String := "Reached max_steps without completion."

/-- The `for _ in range(max_steps)` loop of `Agent.run`.  The model endpoint
is an oracle from the transcript to a response.  The last component counts
the chat-completion queries performed. -/
def runAux (env : Env) (oracle : List Message → ModelResponse) :
    Nat → Agent → FS → List Message → Except PyExc String × Agent × FS × Nat
  | 0, st, fs, _ => (Except.ok max_steps_message, st, fs, 0)
  | fuel + 1, st, fs, msgs =>
    let resp := oracle msgs
    match resp.tool_calls with
    | [] => (Except.ok (resp.content.getD ""), st, fs, 1)
    | tc :: tcs =>
      let msgs1 := msgs ++ [Message.assistant (resp.content.getD "") (tc :: tcs)]
      match exec_round env st fs msgs1 (tc :: tcs) with
      | (Except.ok _, st1, fs1, msgs2) =>
        match runAux env oracle fuel st1 fs1 msgs2 with
        | (r, st2, fs2, q) => (r, st2, fs2, q + 1)
      | (Except.error e, st1, fs1, _) => (Except.error e, st1, fs1, 1)

/-- `Agent.run`: seed the transcript with the system and user messages and
drive the loop for at most `max_steps` rounds (default 20). -/
def Agent.run (env : Env) (oracle : List Message → ModelResponse) (st : Agent)
    (fs : FS) (user_message : String) (max_steps : Nat := 20) :
    Except PyExc String × Agent × FS × Nat :=
  runAux env oracle max_steps st fs
    [Message.system SYSTEM_PROMPT, Message.user user_message]

/-- The session states an `Agent` can be in: freshly constructed (empty
discovery sets), after any routed tool call, or after the filesystem changed
underneath the session (other processes are free to mutate it between
calls). -/
inductive Reachable (env : Env) : Agent → FS → Prop
  | init (aw : Bool) (fs : FS) :
      Reachable env { allow_writes := aw, discovered_files := ∅, discovered_dirs := ∅ } fs
  | step {st : Agent} {fs : FS} (name : String) (args : Args) :
      Reachable env st fs →
      Reachable env (execute_tool env st fs name args).2.1 (execute_tool env st fs name args).2.2
  | fsStep {st : Agent} {fs : FS} (fs' : FS) :
      Reachable env st fs → Reachable env st fs'

/-! ## Derived predicates and concrete instances -/

/-- The non-strict order the sorted listing satisfies (Python `sorted` is
ascending under `<`, so consecutive results never strictly descend). -/
def nameLe (a b : String) : Prop := strLt b a = false

/-- A path component that survives `normpath`: non-empty, not a dot or
dot-dot, and slash-free. -/
def goodComp (c : List Char) : Prop :=
  c ≠ [] ∧ c ≠ ['.'] ∧ c ≠ ['.', '.'] ∧ '/' ∉ c

/-- A legal directory-entry name: what `os.listdir` can return (never empty,
never the special entries, never containing the separator). -/
def goodName (n : String) : Prop :=
  n ≠ "" ∧ n ≠ "." ∧ n ≠ ".." ∧ '/' ∉ n.data

instance : DecidablePred goodName := fun n => by
  unfold goodName
  infer_instance

def isFileNode : FsNode → Bool
  | FsNode.file _ => true
  | _ => false

def isDirNode : FsNode → Bool
  | FsNode.dir _ => true
  | _ => false

/-- Well-formed children of a real directory: distinct entry names, each a
legal `os.listdir` result. -/
def dirWF (ch : List (String × FsNode)) : Prop :=
  (ch.map Prod.fst).Nodup ∧ ∀ e ∈ ch, goodName e.1

/-- How one listing item relates to its counterpart computed with no size
failures: identical except that a failed size is recorded as absent. -/
def itemRel (L : List String) (a b : FileItem) : Prop :=
  a.name = b.name ∧ a.path = b.path ∧ a.typ = b.typ ∧ a.extension = b.extension ∧
  a.size = (if a.path ∈ L then none else b.size)

/-- Both discovery sets hold only normalization-fixed paths. -/
def normalizedSets (env : Env) (st : Agent) : Prop :=
  (∀ q ∈ st.discovered_files, normalize_path env q = q) ∧
  (∀ q ∈ st.discovered_dirs, normalize_path env q = q)

def envW : Env := { cwd := "/" }

def rootW : FsNode := FsNode.dir
  [("README.md", FsNode.file "hello world"),
   ("docs", FsNode.dir [("guide.md", FsNode.file "g")]),
   ("weird", FsNode.other)]

def fsW : FS := { root := rootW }

def chW : List (String × FsNode) :=
  [("README.md", FsNode.file "hello world"),
   ("docs", FsNode.dir [("guide.md", FsNode.file "g")]),
   ("weird", FsNode.other)]

def infoW : FileInfo :=
  { current_path := "/",
    items :=
      [{ name := "README.md", path := "/README.md", typ := "file",
         extension := some "md", size := some 11 },
       { name := "docs", path := "/docs", typ := "directory",
         extension := none, size := none }] }

def rootW9 : FsNode :=
  FsNode.dir [("a.txt", FsNode.file "xy"), ("b.txt", FsNode.file "zw")]

def infoW9 : FileInfo :=
  { current_path := "/",
    items :=
      [{ name := "a.txt", path := "/a.txt", typ := "file",
         extension := some "txt", size := none },
       { name := "b.txt", path := "/b.txt", typ := "file",
         extension := some "txt", size := some 2 }] }

/-! ## Order properties of the name sort -/

theorem lexLt_trans : ∀ {a b c : List Char}, lexLt a b = true → lexLt b c = true → lexLt a c = true
  | [], [], _, h, _ => absurd h (by simp [lexLt])
  | [], _ :: _, [], _, h => absurd h (by simp [lexLt])
  | [], _ :: _, _ :: _, _, _ => by simp [lexLt]
  | _ :: _, [], _, h, _ => absurd h (by simp [lexLt])
  | _ :: _, _ :: _, [], _, h => absurd h (by simp [lexLt])
  | a :: as, b :: bs, c :: cs, h1, h2 => by
    simp only [lexLt] at h1 h2 ⊢
    by_cases hab : a < b
    · by_cases hbc : b < c
      · rw [if_pos (lt_trans hab hbc)]
      · rw [if_neg hbc] at h2
        by_cases hbc2 : b = c
        · subst hbc2
          rw [if_pos hab]
        · rw [if_neg hbc2] at h2
          exact absurd h2 (by simp)
    · rw [if_neg hab] at h1
      by_cases hab2 : a = b
      · subst hab2
        rw [if_pos rfl] at h1
        by_cases hbc : a < c
        · rw [if_pos hbc]
        · rw [if_neg hbc] at h2 ⊢
          by_cases hbc2 : a = c
          · subst hbc2
            rw [if_pos rfl] at h2 ⊢
            exact lexLt_trans h1 h2
          · rw [if_neg hbc2] at h2
            exact absurd h2 (by simp)
      · rw [if_neg hab2] at h1
        exact absurd h1 (by simp)

theorem lexLt_asymm : ∀ {a b : List Char}, lexLt a b = true → lexLt b a = false
  | [], [], h => absurd h (by simp [lexLt])
  | [], _ :: _, _ => by simp [lexLt]
  | _ :: _, [], h => absurd h (by simp [lexLt])
  | a :: as, b :: bs, h => by
    simp only [lexLt] at h ⊢
    by_cases hab : a < b
    · rw [if_neg (lt_asymm hab), if_neg (fun e : b = a => absurd (e ▸ hab) (lt_irrefl a))]
    · rw [if_neg hab] at h
      by_cases hab2 : a = b
      · subst hab2
        rw [if_pos rfl] at h
        rw [if_neg (lt_irrefl a), if_pos rfl]
        exact lexLt_asymm h
      · rw [if_neg hab2] at h
        exact absurd h (by simp)

theorem lexLt_connex : ∀ {a b : List Char}, lexLt a b = false → lexLt b a = false → a = b
  | [], [], _, _ => rfl
  | [], _ :: _, h, _ => by simp [lexLt] at h
  | _ :: _, [], _, h => by simp [lexLt] at h
  | a :: as, b :: bs, h1, h2 => by
    simp only [lexLt] at h1 h2
    by_cases hab : a < b
    · rw [if_pos hab] at h1
      exact absurd h1 (by simp)
    · rw [if_neg hab] at h1
      by_cases hba : b < a
      · rw [if_pos hba] at h2
        exact absurd h2 (by simp)
      · rw [if_neg hba] at h2
        by_cases hab2 : a = b
        · subst hab2
          rw [if_pos rfl] at h1
          rw [if_pos rfl] at h2
          exact congrArg (a :: ·) (lexLt_connex h1 h2)
        · rcases lt_trichotomy a b with h | h | h
          · exact absurd h hab
          · exact absurd h hab2
          · exact absurd h hba

theorem data_inj {a b : String} (h : a.data = b.data) : a = b := by
  cases a
  cases b
  exact congrArg String.mk h

theorem nameLe_trans {a b c : String} (h1 : nameLe a b) (h2 : nameLe b c) : nameLe a c := by
  unfold nameLe strLt at h1 h2 ⊢
  cases hca : lexLt c.data a.data
  · rfl
  · cases hab : lexLt a.data b.data
    · have hba : a = b := data_inj (lexLt_connex hab h1)
      subst hba
      rw [hca] at h2
      exact h2
    · have hcb := lexLt_trans hca hab
      rw [hcb] at h2
      exact h2

theorem mem_insertName {x z : String} : ∀ {l : List String}, z ∈ insertName x l ↔ z = x ∨ z ∈ l
  | [] => by simp [insertName]
  | y :: ys => by
    cases hxy : strLt y x <;>
      (simp [insertName, hxy, List.mem_cons, mem_insertName (l := ys)]
       try tauto)

theorem insertName_perm (x : String) : ∀ (l : List String), (insertName x l).Perm (x :: l)
  | [] => List.Perm.refl _
  | y :: ys => by
    cases hxy : strLt y x
    · simp [insertName, hxy]
    · simp only [insertName, hxy]
      rw [if_pos trivial]
      exact ((insertName_perm x ys).cons y).trans (List.Perm.swap x y ys)

theorem sortNames_perm : ∀ (l : List String), (sortNames l).Perm l
  | [] => List.Perm.refl _
  | x :: xs => by
    simpa [sortNames] using (insertName_perm x (sortNames xs)).trans ((sortNames_perm xs).cons x)

theorem insertName_sorted (x : String) :
    ∀ {l : List String}, l.Pairwise nameLe → (insertName x l).Pairwise nameLe
  | [], _ => by simp [insertName]
  | y :: ys, h => by
    rcases List.pairwise_cons.mp h with ⟨hy, hys⟩
    cases hxy : strLt y x
    · simp only [insertName, hxy]
      rw [if_neg (by simp)]
      refine List.pairwise_cons.mpr ⟨?_, h⟩
      intro z hz
      have hxyle : nameLe x y := hxy
      rcases List.mem_cons.mp hz with rfl | hz
      · exact hxyle
      · exact nameLe_trans hxyle (hy z hz)
    · simp only [insertName, hxy]
      rw [if_pos trivial]
      refine List.pairwise_cons.mpr ⟨?_, insertName_sorted x hys⟩
      intro z hz
      rcases mem_insertName.mp hz with rfl | hz
      · exact lexLt_asymm hxy
      · exact hy z hz

theorem sortNames_sorted : ∀ (l : List String), (sortNames l).Pairwise nameLe
  | [] => by simp [sortNames]
  | x :: xs => by
    simpa [sortNames] using insertName_sorted x (sortNames_sorted xs)

/-! ## Structure of `splitOnSlash` and `normpathChars` -/

theorem splitOnSlash_ne_nil : ∀ (l : List Char), splitOnSlash l ≠ []
  | [] => by simp [splitOnSlash]
  | c :: rest => by
    simp only [splitOnSlash]
    by_cases hc : c = '/'
    · simp [hc]
    · rw [if_neg hc]
      cases h : splitOnSlash rest <;> simp

theorem mem_splitOnSlash : ∀ {l : List Char} {c : List Char}, c ∈ splitOnSlash l → '/' ∉ c
  | [], c, h => by
    simp only [splitOnSlash, List.mem_singleton] at h
    subst h
    simp
  | a :: rest, c, h => by
    simp only [splitOnSlash] at h
    by_cases ha : a = '/'
    · rw [if_pos ha] at h
      rcases List.mem_cons.mp h with rfl | h
      · simp
      · exact mem_splitOnSlash h
    · rw [if_neg ha] at h
      cases hs : splitOnSlash rest with
      | nil => exact absurd hs (splitOnSlash_ne_nil rest)
      | cons hd tl =>
        rw [hs] at h
        rcases List.mem_cons.mp h with rfl | h
        · intro hmem
          rcases List.mem_cons.mp hmem with h' | h'
          · exact ha h'.symm
          · exact mem_splitOnSlash (l := rest) (hs ▸ List.mem_cons_self hd tl) h'
        · exact mem_splitOnSlash (l := rest) (hs ▸ List.mem_cons_of_mem hd h)

theorem splitOnSlash_no_slash : ∀ {l : List Char}, '/' ∉ l → splitOnSlash l = [l]
  | [], _ => rfl
  | c :: rest, h => by
    have hc : c ≠ '/' := fun e => h (by rw [e]; exact List.mem_cons_self _ _)
    simp only [splitOnSlash]
    rw [if_neg hc, splitOnSlash_no_slash (fun hm => h (List.mem_cons_of_mem c hm))]


theorem splitOnSlash_append_slash : ∀ {x t : List Char}, '/' ∉ x →
    splitOnSlash (x ++ '/' :: t) = x :: splitOnSlash t
  | [], t, _ => by simp [splitOnSlash]
  | c :: x, t, h => by
    have hc : c ≠ '/' := fun e => h (by rw [e]; exact List.mem_cons_self _ _)
    have ih := splitOnSlash_append_slash (x := x) (t := t)
      (fun hm => h (List.mem_cons_of_mem c hm))
    simp only [List.cons_append, splitOnSlash, List.append_eq]
    rw [if_neg hc, ih]

theorem splitOnSlash_joinSlash : ∀ {comps : List (List Char)}, comps ≠ [] →
    (∀ c ∈ comps, '/' ∉ c) → splitOnSlash (joinSlash comps) = comps
  | [], h, _ => absurd rfl h
  | [c], _, hall => by
    simp only [joinSlash]
    exact splitOnSlash_no_slash (hall c (by simp))
  | c :: d :: rest, _, hall => by
    simp only [joinSlash]
    rw [splitOnSlash_append_slash (hall c (List.mem_cons_self _ _)),
      splitOnSlash_joinSlash (by simp) (fun e he => hall e (List.mem_cons_of_mem c he))]

theorem normStep_good {slashes : Nat} (hs : slashes ≠ 0) :
    ∀ {comps : List (List Char)} {acc : List (List Char)},
      (∀ c ∈ comps, '/' ∉ c) → (∀ c ∈ acc, goodComp c) →
      ∀ c ∈ comps.foldl (normStep slashes) acc, goodComp c
  | [], _, _, hacc, c, hc => hacc c hc
  | comp :: rest, acc, hcomps, hacc, c, hc => by
    have hrest : ∀ c ∈ rest, '/' ∉ c := fun e he => hcomps e (List.mem_cons_of_mem comp he)
    have hstep : ∀ c ∈ normStep slashes acc comp, goodComp c := by
      intro c hc
      unfold normStep at hc
      by_cases h1 : comp = [] ∨ comp = ['.']
      · rw [if_pos h1] at hc
        exact hacc c hc
      · rw [if_neg h1] at hc
        by_cases h2 : comp ≠ ['.', '.'] ∨ (slashes = 0 ∧ acc = []) ∨ acc.getLast? = some ['.', '.']
        · rw [if_pos h2] at hc
          rcases List.mem_append.mp hc with hc | hc
          · exact hacc c hc
          · rw [List.mem_singleton.mp hc]
            push_neg at h1
            refine ⟨h1.1, h1.2, ?_, hcomps comp (List.mem_cons_self _ _)⟩
            rcases h2 with h2 | ⟨h2, _⟩ | h2
            · exact h2
            · exact absurd h2 hs
            · exact absurd rfl ((hacc _ (List.mem_of_mem_getLast? h2)).2.2.1)
        · rw [if_neg h2] at hc
          exact hacc c (List.dropLast_subset acc hc)
    exact normStep_good hs hrest hstep c hc

theorem foldl_normStep_id {slashes : Nat} :
    ∀ {comps : List (List Char)}, (∀ c ∈ comps, goodComp c) →
      ∀ acc, comps.foldl (normStep slashes) acc = acc ++ comps
  | [], _, acc => by simp
  | comp :: rest, hg, acc => by
    have hcomp := hg comp (List.mem_cons_self _ _)
    have hstep : normStep slashes acc comp = acc ++ [comp] := by
      unfold normStep
      rw [if_neg (by
        rintro (h | h)
        · exact hcomp.1 h
        · exact hcomp.2.1 h)]
      rw [if_pos (Or.inl hcomp.2.2.1)]
    simp only [List.foldl_cons, hstep]
    rw [foldl_normStep_id (fun e he => hg e (List.mem_cons_of_mem comp he)) (acc ++ [comp])]
    simp

theorem joinSlash_head_ne_slash {comps : List (List Char)}
    (hg : ∀ c ∈ comps, goodComp c) : (joinSlash comps).head? ≠ some '/' := by
  cases comps with
  | nil => simp [joinSlash]
  | cons c rest =>
    have hc := hg c (List.mem_cons_self _ _)
    have : (joinSlash (c :: rest)).head? = c.head? := by
      cases rest with
      | nil => simp [joinSlash]
      | cons d ds =>
        simp only [joinSlash]
        cases hcc : c with
        | nil => exact absurd hcc hc.1
        | cons x xs => simp
    rw [this]
    intro hx
    cases hcc : c with
    | nil =>
      rw [hcc] at hx
      simp at hx
    | cons x xs =>
      rw [hcc] at hx
      simp only [List.head?_cons, Option.some.injEq] at hx
      exact hc.2.2.2 (by rw [hcc, hx]; exact List.mem_cons_self _ _)

theorem leadingSlashes_ne_zero {p : List Char} (hp : isabs p = true) :
    leadingSlashes p ≠ 0 := by
  unfold leadingSlashes
  rw [if_pos hp]
  split <;> simp

theorem leadingSlashes_one_or_two {p : List Char} (hp : isabs p = true) :
    leadingSlashes p = 1 ∨ leadingSlashes p = 2 := by
  unfold leadingSlashes
  rw [if_pos hp]
  split
  · exact Or.inr rfl
  · exact Or.inl rfl

theorem normpath_abs_form (p : List Char) (hp : isabs p = true) :
    ∃ comps, (∀ c ∈ comps, goodComp c) ∧
      normpathChars p = List.replicate (leadingSlashes p) '/' ++ joinSlash comps := by
  have hpnil : p ≠ [] := by
    intro h
    rw [h] at hp
    simp [isabs] at hp
  refine ⟨(splitOnSlash p).foldl (normStep (leadingSlashes p)) [], ?_, ?_⟩
  · exact normStep_good (leadingSlashes_ne_zero hp)
      (fun c hc => mem_splitOnSlash hc) (by simp)
  · have hout : List.replicate (leadingSlashes p) '/' ++
        joinSlash ((splitOnSlash p).foldl (normStep (leadingSlashes p)) []) ≠ [] := by
      cases hk : leadingSlashes p with
      | zero => exact absurd hk (leadingSlashes_ne_zero hp)
      | succ n => simp [List.replicate]
    unfold normpathChars
    rw [if_neg hpnil]
    show (if (List.replicate (leadingSlashes p) '/' ++
        joinSlash ((splitOnSlash p).foldl (normStep (leadingSlashes p)) [])) = [] then ['.']
      else (List.replicate (leadingSlashes p) '/' ++
        joinSlash ((splitOnSlash p).foldl (normStep (leadingSlashes p)) []))) = _
    rw [if_neg hout]

theorem isPrefixOf_two_slashes {j : List Char} (hj : j.head? ≠ some '/') :
    (List.replicate 2 '/').isPrefixOf ('/' :: j) = false := by
  cases j with
  | nil => rfl
  | cons c cs =>
    have hc : c ≠ '/' := by
      intro e
      exact hj (by rw [e]; rfl)
    simp [List.replicate, List.isPrefixOf, hc]
    exact fun e => hc e.symm

theorem leadingSlashes_replicate {k : Nat} (hk : k = 1 ∨ k = 2) {j : List Char}
    (hj : j.head? ≠ some '/') :
    leadingSlashes (List.replicate k '/' ++ j) = k := by
  rcases hk with rfl | rfl
  · show leadingSlashes ('/' :: j) = 1
    unfold leadingSlashes
    rw [if_pos (by simp [isabs])]
    rw [if_neg (by
      rintro ⟨h2, _⟩
      rw [isPrefixOf_two_slashes hj] at h2
      exact absurd h2 (by simp))]
  · show leadingSlashes ('/' :: '/' :: j) = 2
    unfold leadingSlashes
    rw [if_pos (by simp [isabs])]
    rw [if_pos ⟨by simp [List.replicate, List.isPrefixOf], by
      show ¬ (List.replicate 3 '/').isPrefixOf ('/' :: '/' :: j) = true
      have : (List.replicate 3 '/').isPrefixOf ('/' :: '/' :: j)
          = (List.replicate 2 '/').isPrefixOf ('/' :: j) := by
        simp [List.replicate, List.isPrefixOf]
      rw [this, isPrefixOf_two_slashes hj]
      simp⟩]

theorem normpath_idem_on_normal {k : Nat} (hk : k = 1 ∨ k = 2) {comps : List (List Char)}
    (hg : ∀ c ∈ comps, goodComp c) :
    normpathChars (List.replicate k '/' ++ joinSlash comps)
      = List.replicate k '/' ++ joinSlash comps := by
  have hpne : List.replicate k '/' ++ joinSlash comps ≠ [] := by
    rcases hk with rfl | rfl <;> simp [List.replicate]
  have hLS : leadingSlashes (List.replicate k '/' ++ joinSlash comps) = k :=
    leadingSlashes_replicate hk (joinSlash_head_ne_slash hg)
  have hsplit : splitOnSlash (List.replicate k '/' ++ joinSlash comps)
      = List.replicate k [] ++ splitOnSlash (joinSlash comps) := by
    rcases hk with rfl | rfl
    · show splitOnSlash ('/' :: joinSlash comps) = [] :: splitOnSlash (joinSlash comps)
      simp [splitOnSlash]
    · show splitOnSlash ('/' :: '/' :: joinSlash comps)
        = [] :: [] :: splitOnSlash (joinSlash comps)
      simp [splitOnSlash]
  have hstep_nil : normStep k [] [] = [] := by
    unfold normStep
    rw [if_pos (Or.inl rfl)]
  have hfold : (splitOnSlash (List.replicate k '/' ++ joinSlash comps)).foldl
      (normStep k) [] = comps := by
    rw [hsplit]
    have hskip : (List.replicate k [] ++ splitOnSlash (joinSlash comps)).foldl
        (normStep k) [] = (splitOnSlash (joinSlash comps)).foldl (normStep k) [] := by
      rcases hk with rfl | rfl
      · show (([] : List Char) :: splitOnSlash (joinSlash comps)).foldl (normStep 1) [] = _
        rw [List.foldl_cons, hstep_nil]
      · show (([] : List Char) :: [] :: splitOnSlash (joinSlash comps)).foldl (normStep 2) [] = _
        rw [List.foldl_cons, hstep_nil, List.foldl_cons, hstep_nil]
    rw [hskip]
    cases hcs : comps with
    | nil =>
      show (splitOnSlash (joinSlash [])).foldl (normStep k) [] = []
      show (splitOnSlash []).foldl (normStep k) [] = []
      show List.foldl (normStep k) [] [[]] = []
      rw [List.foldl_cons, hstep_nil]
      rfl
    | cons c rest =>
      rw [← hcs]
      rw [splitOnSlash_joinSlash (by rw [hcs]; simp)
        (fun e he => (hg e he).2.2.2)]
      rw [foldl_normStep_id hg []]
      rfl
  unfold normpathChars
  rw [if_neg hpne]
  show (if (List.replicate (leadingSlashes (List.replicate k '/' ++ joinSlash comps)) '/' ++
      joinSlash ((splitOnSlash (List.replicate k '/' ++ joinSlash comps)).foldl
        (normStep (leadingSlashes (List.replicate k '/' ++ joinSlash comps))) [])) = []
    then ['.']
    else (List.replicate (leadingSlashes (List.replicate k '/' ++ joinSlash comps)) '/' ++
      joinSlash ((splitOnSlash (List.replicate k '/' ++ joinSlash comps)).foldl
        (normStep (leadingSlashes (List.replicate k '/' ++ joinSlash comps))) []))) = _
  rw [hLS, hfold, if_neg hpne]

theorem normpath_idem_of_abs {p : List Char} (hp : isabs p = true) :
    normpathChars (normpathChars p) = normpathChars p := by
  obtain ⟨comps, hg, heq⟩ := normpath_abs_form p hp
  rw [heq]
  exact normpath_idem_on_normal (leadingSlashes_one_or_two hp) hg

theorem isabs_normpath {p : List Char} (hp : isabs p = true) :
    isabs (normpathChars p) = true := by
  obtain ⟨comps, _, heq⟩ := normpath_abs_form p hp
  rw [heq]
  rcases leadingSlashes_one_or_two hp with hk | hk <;> rw [hk] <;> rfl

theorem expanduser_of_not_tilde (env : Env) {p : List Char} (h : p.head? ≠ some '~') :
    expanduserChars env p = p := by
  cases p with
  | nil => rfl
  | cons c rest =>
    have hc : c ≠ '~' := by
      intro e
      exact h (by rw [e]; rfl)
    unfold expanduserChars
    split
    · simp_all
    · rfl

theorem isabs_join2_cwd {a b : List Char} (ha : isabs a = true) (hb : isabs b = false) :
    isabs (join2 a b) = true := by
  have hane : a ≠ [] := by
    intro e
    rw [e] at ha
    simp [isabs] at ha
  unfold join2
  rw [if_neg (by simp [hb])]
  by_cases h2 : a = [] ∨ a.getLast? = some '/'
  · rw [if_pos h2]
    unfold isabs at ha ⊢
    rwa [List.head?_append_of_ne_nil _ hane]
  · rw [if_neg h2]
    unfold isabs at ha ⊢
    rwa [List.head?_append_of_ne_nil _ hane]

theorem abspath_abs_normpath (env : Env) (hcwd : isabs env.cwd.data = true)
    (x : List Char) : ∃ q, isabs q = true ∧ abspathChars env x = normpathChars q := by
  by_cases hx : isabs x
  · exact ⟨x, hx, by simp [abspathChars, hx]⟩
  · refine ⟨join2 env.cwd.data x, isabs_join2_cwd hcwd (by simpa using hx), ?_⟩
    simp [abspathChars, hx]

theorem isabs_abspath (env : Env) (hcwd : isabs env.cwd.data = true) (x : List Char) :
    isabs (abspathChars env x) = true := by
  obtain ⟨q, hq, heq⟩ := abspath_abs_normpath env hcwd x
  rw [heq]
  exact isabs_normpath hq

/-- Idempotence of `normalize_path` (for the actual process state:
`os.getcwd()` always returns an absolute path). -/
theorem normalize_path_idem (env : Env) (hcwd : isabs env.cwd.data = true) (s : String) :
    normalize_path env (normalize_path env s) = normalize_path env s := by
  unfold normalize_path
  congr 1
  have habs : isabs (abspathChars env (expanduserChars env s.data)) = true :=
    isabs_abspath env hcwd _
  have hdata : (String.mk (abspathChars env (expanduserChars env s.data))).data
      = abspathChars env (expanduserChars env s.data) := rfl
  rw [hdata]
  have habs2 : (abspathChars env (expanduserChars env s.data)).head? = some '/' :=
    of_decide_eq_true habs
  rw [expanduser_of_not_tilde env (by
    rw [habs2]
    intro e
    injection e with e1
    exact absurd e1 (by decide))]
  obtain ⟨q, hq, heq⟩ := abspath_abs_normpath env hcwd (expanduserChars env s.data)
  rw [heq]
  have h2 : abspathChars env (normpathChars q) = normpathChars (normpathChars q) := by
    simp [abspathChars, isabs_normpath hq]
  rw [h2]
  exact normpath_idem_of_abs hq

/-- The normalized path always starts with `/` when the working directory is
absolute. -/
theorem normalize_path_isabs (env : Env) (hcwd : isabs env.cwd.data = true) (s : String) :
    isabs (normalize_path env s).data = true :=
  isabs_abspath env hcwd _

/-! ## Path components, child resolution -/

theorem mk_data (s : String) : String.mk s.data = s := by
  cases s
  rfl

theorem splitOnSlash_append : ∀ (a b : List Char),
    splitOnSlash (a ++ '/' :: b) = splitOnSlash a ++ splitOnSlash b
  | [], b => by simp [splitOnSlash]
  | c :: a, b => by
    by_cases hc : c = '/'
    · subst hc
      simp only [List.cons_append, splitOnSlash, List.append_eq]
      rw [if_pos trivial, if_pos trivial, splitOnSlash_append a b]
      rfl
    · simp only [List.cons_append, splitOnSlash, List.append_eq]
      rw [if_neg hc, if_neg hc, splitOnSlash_append a b]
      cases hs : splitOnSlash a with
      | nil => exact absurd hs (splitOnSlash_ne_nil a)
      | cons hd tl => rfl

theorem pathComponents_mk (l : List Char) :
    pathComponents (String.mk l) = ((splitOnSlash l).filter (· ≠ [])).map String.mk := rfl

theorem pathComponents_join (d : String) {n : String} (h1 : n ≠ "")
    (h2 : '/' ∉ n.data) : pathComponents (joinStr d n) = pathComponents d ++ [n] := by
  have hdata : n.data ≠ [] := by
    intro e
    exact h1 (data_inj (by rw [e]))
  have habs : isabs n.data = false := by
    unfold isabs
    cases hx : n.data with
    | nil => exact absurd hx hdata
    | cons c cs =>
      have : c ≠ '/' := by
        intro e
        exact h2 (by rw [hx, e]; exact List.mem_cons_self _ _)
      simp [this]
  have hsplit_n : splitOnSlash n.data = [n.data] := splitOnSlash_no_slash h2
  have hfilter_n : List.filter (· ≠ ([] : List Char)) [n.data] = [n.data] := by
    rw [List.filter_cons_of_pos (by simpa using hdata)]
    rfl
  have hmkn : String.mk n.data = n := mk_data n
  have hpc : pathComponents d = ((splitOnSlash d.data).filter (· ≠ [])).map String.mk := by
    rw [← pathComponents_mk, mk_data]
  have hstart : pathComponents (joinStr d n)
      = ((splitOnSlash (join2 d.data n.data)).filter (· ≠ [])).map String.mk :=
    pathComponents_mk _
  rw [hstart, hpc]
  unfold join2
  rw [habs]
  simp only [Bool.false_eq_true, if_false]
  by_cases hd : d.data = [] ∨ d.data.getLast? = some '/'
  · rw [if_pos hd]
    rcases hd with hd | hd
    · rw [hd]
      simp only [List.nil_append]
      rw [hsplit_n, hfilter_n]
      show _ = (List.filter (· ≠ []) (splitOnSlash [])).map String.mk ++ [n]
      rw [show splitOnSlash ([] : List Char) = [[]] from rfl]
      rw [List.filter_cons_of_neg (by simp)]
      simp [hmkn]
    · have hne : d.data ≠ [] := by
        intro e
        rw [e] at hd
        simp at hd
      have hlast : d.data.getLast hne = '/' :=
        (List.getLast_eq_iff_getLast?_eq_some hne).mpr hd
      have hD : d.data.dropLast ++ '/' :: n.data = d.data ++ n.data := by
        conv_rhs => rw [← List.dropLast_append_getLast hne, hlast]
        simp
      rw [← hD, splitOnSlash_append]
      have hDd : splitOnSlash d.data = splitOnSlash d.data.dropLast ++ [[]] := by
        conv_lhs => rw [← List.dropLast_append_getLast hne, hlast]
        have h0 : d.data.dropLast ++ ['/'] = d.data.dropLast ++ '/' :: [] := rfl
        rw [h0, splitOnSlash_append]
        rfl
      rw [hsplit_n, hDd]
      rw [List.filter_append, List.filter_append, hfilter_n]
      rw [show List.filter (· ≠ ([] : List Char)) [[]] = [] from by
        rw [List.filter_cons_of_neg (by simp)]
        rfl]
      simp [hmkn]
  · rw [if_neg hd]
    rw [splitOnSlash_append]
    rw [hsplit_n, List.filter_append, hfilter_n, List.map_append]
    simp [hmkn]

theorem resolve_append (n : FsNode) : ∀ (as bs : List String),
    resolve n (as ++ bs) = (resolve n as).bind (fun m => resolve m bs)
  | [], bs => by simp [resolve]
  | a :: as, bs => by
    cases n with
    | file c => simp [resolve]
    | other => simp [resolve]
    | dir ch =>
      show resolve (FsNode.dir ch) (a :: (as ++ bs)) = _
      simp only [resolve]
      cases ch.lookup a with
      | none => simp
      | some child => simpa using resolve_append child as bs

theorem lookup_eq_of_nodup : ∀ {ch : List (String × FsNode)},
    (ch.map Prod.fst).Nodup → ∀ {n : String} {node : FsNode},
    (n, node) ∈ ch → ch.lookup n = some node
  | [], _, _, _, hmem => absurd hmem (List.not_mem_nil _)
  | e :: rest, hnodup, n, node, hmem => by
    rcases List.mem_cons.mp hmem with rfl | hmem
    · simp [List.lookup]
    · have hns : (List.map Prod.fst rest).Nodup ∧ e.1 ∉ List.map Prod.fst rest := by
        rw [List.map_cons, List.nodup_cons] at hnodup
        exact ⟨hnodup.2, hnodup.1⟩
      have hne : e.1 ≠ n := by
        intro heq
        exact hns.2 (heq ▸ List.mem_map_of_mem Prod.fst hmem)
      have hbeq : (n == e.1) = false := by
        rw [beq_eq_false_iff_ne]
        exact fun h => hne h.symm
      simp only [List.lookup, hbeq]
      exact lookup_eq_of_nodup hns.1 hmem

/-- Resolving a child path of a directory is a lookup among its children. -/
theorem resolvePath_child {fs : FS} {d : String} {ch : List (String × FsNode)}
    (hres : resolvePath fs d = some (FsNode.dir ch))
    {n : String} (h1 : n ≠ "") (h2 : '/' ∉ n.data) :
    resolvePath fs (joinStr d n) = ch.lookup n := by
  unfold resolvePath at hres ⊢
  rw [pathComponents_join d h1 h2, resolve_append, hres]
  show resolve (FsNode.dir ch) [n] = ch.lookup n
  simp only [resolve]
  cases ch.lookup n <;> rfl

theorem lookup_map_replace (c : String) (g : FsNode → FsNode) :
    ∀ (ch : List (String × FsNode)),
    (ch.map fun e => if e.1 = c then (e.1, g e.2) else e).lookup c
      = (ch.lookup c).map g
  | [] => rfl
  | (k, v) :: rest => by
    by_cases he : k = c
    · subst he
      have hmap : ((k, v) :: rest).map (fun e => if e.1 = k then (e.1, g e.2) else e)
          = (k, g v) :: rest.map (fun e => if e.1 = k then (e.1, g e.2) else e) := by
        rw [List.map_cons]
        congr 1
        simp
      rw [hmap]
      show List.lookup k ((k, g v) :: _) = Option.map g (List.lookup k ((k, v) :: rest))
      simp only [List.lookup, beq_self_eq_true]
      rfl
    · have hbeq : (c == k) = false := beq_eq_false_iff_ne.mpr (fun h => he h.symm)
      have hmap : ((k, v) :: rest).map (fun e => if e.1 = c then (e.1, g e.2) else e)
          = (k, v) :: rest.map (fun e => if e.1 = c then (e.1, g e.2) else e) := by
        rw [List.map_cons]
        congr 1
        simp [he]
      rw [hmap]
      show List.lookup c ((k, v) :: _) = Option.map g (List.lookup c ((k, v) :: rest))
      simp only [List.lookup, hbeq]
      exact lookup_map_replace c g rest

theorem resolve_replaceAt : ∀ (comps : List String) (root : FsNode) (newNode : FsNode),
    (resolve root comps).isSome →
    resolve (replaceAt root comps newNode) comps = some newNode
  | [], root, newNode, _ => rfl
  | c :: rest, root, newNode, h => by
    cases root with
    | file s => simp [resolve] at h
    | other => simp [resolve] at h
    | dir ch =>
      simp only [resolve] at h
      cases hlk : ch.lookup c with
      | none =>
        rw [hlk] at h
        simp at h
      | some child =>
        rw [hlk] at h
        show resolve (FsNode.dir (ch.map fun e =>
          if e.1 = c then (e.1, replaceAt e.2 rest newNode) else e)) (c :: rest) = _
        simp only [resolve]
        rw [lookup_map_replace c (fun nd => replaceAt nd rest newNode) ch, hlk]
        simp only [Option.map_some']
        exact resolve_replaceAt rest child newNode h

theorem lookup_append_of_none {s : String} :
    ∀ {ch : List (String × FsNode)}, ch.lookup s = none →
    ∀ (l2 : List (String × FsNode)), (ch ++ l2).lookup s = l2.lookup s
  | [], _, l2 => rfl
  | (k, v) :: rest, h, l2 => by
    simp only [List.lookup, List.cons_append] at h ⊢
    revert h
    cases hbeq : (s == k) with
    | true =>
      intro h
      simp at h
    | false =>
      intro h
      exact lookup_append_of_none h l2

theorem resolve_addAt : ∀ (pc : List String) (root : FsNode) (leaf : String)
    (newNode : FsNode) {ch : List (String × FsNode)},
    resolve root pc = some (FsNode.dir ch) → ch.lookup leaf = none →
    resolve (addAt root pc leaf newNode) (pc ++ [leaf]) = some newNode
  | [], root, leaf, newNode, ch, hres, hlk => by
    cases root with
    | file s => simp [resolve] at hres
    | other => simp [resolve] at hres
    | dir ch2 =>
      have hch : ch2 = ch := by
        have h2 : some (FsNode.dir ch2) = some (FsNode.dir ch) := hres
        injection h2 with h3
        injection h3
      subst hch
      show resolve (FsNode.dir (ch2 ++ [(leaf, newNode)])) [leaf] = some newNode
      simp only [resolve]
      rw [lookup_append_of_none hlk]
      simp [List.lookup]
  | c :: rest, root, leaf, newNode, ch, hres, hlk => by
    cases root with
    | file s => simp [resolve] at hres
    | other => simp [resolve] at hres
    | dir ch2 =>
      simp only [resolve] at hres
      cases hlk2 : ch2.lookup c with
      | none =>
        rw [hlk2] at hres
        simp at hres
      | some child =>
        rw [hlk2] at hres
        show resolve (FsNode.dir (ch2.map fun e =>
            if e.1 = c then (e.1, addAt e.2 rest leaf newNode) else e))
          ((c :: rest) ++ [leaf]) = _
        simp only [List.cons_append, resolve]
        rw [lookup_map_replace c (fun nd => addAt nd rest leaf newNode) ch2, hlk2]
        simp only [Option.map_some']
        exact resolve_addAt rest child leaf newNode hres hlk

/-- A successful `open(p, "w")` leaves the written file at `p` (and touches
nothing about size failures). -/
theorem openWrite_resolve {fs : FS} {p content : String} {fs2 : FS}
    (h : openWrite fs p content = Except.ok fs2) :
    resolvePath fs2 p = some (FsNode.file content) ∧ fs2.size_fails = fs.size_fails := by
  simp only [openWrite] at h
  split at h
  · exact absurd h (by simp)
  · rename_i hres
    injection h with h
    subst h
    refine ⟨?_, rfl⟩
    show resolve (replaceAt fs.root (pathComponents p) (FsNode.file content))
      (pathComponents p) = _
    exact resolve_replaceAt _ _ _ (by rw [hres]; rfl)
  · exact absurd h (by simp)
  · rename_i hnone
    split at h
    · rename_i ch hpar
      split at h
      · rename_i leaf hleaf
        injection h with h
        subst h
        have hne : pathComponents p ≠ [] := by
          intro e
          rw [e] at hleaf
          simp at hleaf
        have hlast : (pathComponents p).getLast hne = leaf :=
          (List.getLast_eq_iff_getLast?_eq_some hne).mpr hleaf
        have hdecomp : (pathComponents p).dropLast ++ [leaf] = pathComponents p := by
          conv_rhs => rw [← List.dropLast_append_getLast hne, hlast]
        have hlkleaf : ch.lookup leaf = none := by
          rw [← hdecomp, resolve_append, hpar] at hnone
          simp only [Option.some_bind] at hnone
          revert hnone
          show resolve (FsNode.dir ch) [leaf] = none → ch.lookup leaf = none
          simp only [resolve]
          cases ch.lookup leaf <;> simp
        refine ⟨?_, rfl⟩
        show resolve (addAt fs.root (pathComponents p).dropLast leaf (FsNode.file content))
          (pathComponents p) = _
        nth_rewrite 2 [← hdecomp]
        exact resolve_addAt _ _ _ _ hpar hlkleaf
      · exact absurd h (by simp)
    · exact absurd h (by simp)
    · exact absurd h (by simp)

/-- A successful `write_file` returns the `f"Wrote {len(content)} bytes to {norm}"`
confirmation and leaves the file content at the normalized path. -/
theorem write_file_ok {env : Env} {fs : FS} {p c msg : String} {fs2 : FS}
    (h : write_file env fs p c = Except.ok (msg, fs2)) :
    msg = s!"Wrote {c.length} bytes to {normalize_path env p}" ∧
    resolvePath fs2 (normalize_path env p) = some (FsNode.file c) := by
  simp only [write_file] at h
  split at h
  · exact absurd h (by simp)
  · rename_i fs1 hafter
    split at h
    · exact absurd h (by simp)
    · rename_i fs2' how
      injection h with h
      injection h with h1 h2
      subst h2
      exact ⟨h1.symm, (openWrite_resolve how).1⟩

/-- `read_file` succeeds on a normalization-fixed path that resolves to a
regular file, returning its content. -/
theorem read_file_of_file {env : Env} {fs : FS} {p : String}
    (hidem : normalize_path env p = p) {c : String}
    (hres : resolvePath fs p = some (FsNode.file c)) :
    read_file env fs p = Except.ok c := by
  unfold read_file
  rw [hidem]
  rw [if_neg (by simp [pathExists, hres])]
  rw [if_neg (by simp [isFile, hres])]
  rw [hres]

theorem reverse_eq_getLast_cons {l : List Char} (h : l ≠ []) :
    l.reverse = l.getLast h :: l.dropLast.reverse := by
  conv_lhs => rw [← List.dropLast_append_getLast h]
  rw [List.reverse_append]
  rfl

/-- The router's trailing-strip loop computes exactly the removal of the
longest trailing run of disallowed characters. -/
theorem stripTailAux_spec : ∀ (fuel : Nat) (l : List Char), l.length ≤ fuel →
    stripTailAux fuel l
      = (l.reverse.dropWhile (fun c => ¬ allowedTailChar c)).reverse
  | 0, l, h => by
    have : l = [] := List.eq_nil_of_length_eq_zero (Nat.le_zero.mp h)
    subst this
    rfl
  | fuel + 1, l, h => by
    cases hl : l.getLast? with
    | none =>
      have : l = [] := by
        cases l with
        | nil => rfl
        | cons a as => simp [List.getLast?_eq_getLast] at hl
      subst this
      rfl
    | some c =>
      have hne : l ≠ [] := by
        intro e
        rw [e] at hl
        simp at hl
      have hlast : l.getLast hne = c := (List.getLast_eq_iff_getLast?_eq_some hne).mpr hl
      have hrev : l.reverse = c :: l.dropLast.reverse := by
        rw [reverse_eq_getLast_cons hne, hlast]
      simp only [stripTailAux, hl]
      by_cases hc : allowedTailChar c
      · rw [if_neg (by simp [hc])]
        rw [hrev, List.dropWhile_cons_of_neg (by simp [hc]), ← hrev]
        simp
      · rw [if_pos (by simp [hc])]
        rw [hrev, List.dropWhile_cons_of_pos (by simp [hc])]
        have hlen : l.dropLast.length ≤ fuel := by
          have := List.length_dropLast l
          omega
        exact stripTailAux_spec fuel l.dropLast hlen

/-! ## Characterizing `splitext` -/

theorem takeWhile_append_stop {p : Char → Bool} {y : Char}
    (hy : p y = false) : ∀ {xs : List Char}, (∀ x ∈ xs, p x) →
    ∀ (ys : List Char), (xs ++ y :: ys).takeWhile p = xs
  | [], _, ys => by
    rw [List.nil_append, List.takeWhile_cons_of_neg (by simp [hy])]
  | a :: as, hall, ys => by
    rw [List.cons_append,
      List.takeWhile_cons_of_pos (hall a (List.mem_cons_self _ _)),
      takeWhile_append_stop hy (fun x hx => hall x (List.mem_cons_of_mem a hx)) ys]

theorem drop_length_succ_append : ∀ (L : List Char) (c : Char) (X : List Char),
    (L ++ c :: X).drop (L.length + 1) = X
  | [], c, X => rfl
  | a :: as, c, X => by
    simp only [List.cons_append, List.length_cons]
    exact drop_length_succ_append as c X

theorem rev_decomp {name stem e : List Char} (heq : name = stem ++ '.' :: e) :
    name.reverse = e.reverse ++ '.' :: stem.reverse := by
  rw [heq, List.reverse_append, List.reverse_cons, List.append_assoc]
  rfl

/-- Soundness of `splitext`: a name that decomposes at its last dot with a
non-dot character before the dot yields exactly the dot-suffix. -/
theorem splitextExt_of_decomp {name stem e : List Char}
    (heq : name = stem ++ '.' :: e) (hdotfree : '.' ∉ e)
    (hstem : ∃ ch ∈ stem, ch ≠ '.') : splitextExt name = '.' :: e := by
  have hrev : name.reverse = e.reverse ++ '.' :: stem.reverse := rev_decomp heq
  have htw : name.reverse.takeWhile (· ≠ '.') = e.reverse := by
    rw [hrev]
    exact takeWhile_append_stop (by simp)
      (fun x hx => by
        simp only [decide_eq_true_eq]
        intro hxx
        exact hdotfree (by rw [← hxx]; exact List.mem_reverse.mp hx)) _
  have hlenname : name.length = stem.length + 1 + e.length := by
    rw [heq]
    simp only [List.length_append, List.length_cons]
    omega
  unfold splitextExt
  rw [htw]
  rw [if_neg (by
    rw [List.length_reverse, hlenname]
    omega)]
  rw [hrev, drop_length_succ_append]
  obtain ⟨ch, hch, hchne⟩ := hstem
  rw [if_pos (by
    rw [List.any_eq_true]
    exact ⟨ch, List.mem_reverse.mpr hch, by simpa using hchne⟩)]
  rw [List.reverse_reverse]

/-- Completeness of `splitext`: a dot-headed result exhibits the last-dot
decomposition with a non-dot character in the stem. -/
theorem splitextExt_decomp {name e : List Char}
    (h : splitextExt name = '.' :: e) :
    ∃ stem, name = stem ++ '.' :: e ∧ '.' ∉ e ∧ ∃ ch ∈ stem, ch ≠ '.' := by
  unfold splitextExt at h
  by_cases hlen : (name.reverse.takeWhile (· ≠ '.')).length = name.length
  · rw [if_pos hlen] at h
    exact absurd h.symm (List.cons_ne_nil _ _)
  · rw [if_neg hlen] at h
    have hsplit := List.takeWhile_append_dropWhile (fun c : Char => decide (c ≠ '.'))
      name.reverse
    have hdwne : name.reverse.dropWhile (· ≠ '.') ≠ [] := by
      intro hnil
      rw [hnil, List.append_nil] at hsplit
      exact hlen (by rw [hsplit, List.length_reverse])
    obtain ⟨d, rest, hdw⟩ : ∃ d rest, name.reverse.dropWhile (· ≠ '.') = d :: rest := by
      cases hx : name.reverse.dropWhile (· ≠ '.') with
      | nil => exact absurd hx hdwne
      | cons d rest => exact ⟨d, rest, rfl⟩
    have hd : d = '.' := by
      have hh := List.head?_dropWhile_not (fun c : Char => decide (c ≠ '.')) name.reverse
      rw [hdw] at hh
      simp at hh
      exact hh
    subst hd
    obtain ⟨T, hT⟩ : ∃ T, name.reverse.takeWhile (· ≠ '.') = T := ⟨_, rfl⟩
    rw [hT] at h hsplit
    have hrev : name.reverse = T ++ '.' :: rest := by
      conv_lhs => rw [← hsplit]
      rw [hdw]
    have hdrop : name.reverse.drop (T.length + 1) = rest := by
      rw [hrev, drop_length_succ_append]
    rw [hdrop] at h
    by_cases hany : rest.any (· ≠ '.')
    · rw [if_pos hany] at h
      have he : T.reverse = e := by
        injection h
      refine ⟨rest.reverse, ?_, ?_, ?_⟩
      · conv_lhs => rw [← List.reverse_reverse name]
        rw [hrev, ← he]
        rw [List.reverse_append, List.reverse_cons, List.append_assoc]
        rfl
      · rw [← he]
        intro hmem
        rw [List.mem_reverse] at hmem
        rw [← hT] at hmem
        have := List.mem_takeWhile_imp hmem
        simp at this
      · obtain ⟨ch, hch, hchne⟩ := List.any_eq_true.mp hany
        exact ⟨ch, List.mem_reverse.mpr hch, by simpa using hchne⟩
    · rw [if_neg hany] at h
      exact absurd h.symm (List.cons_ne_nil _ _)

/-- `splitext` returns either the empty extension or a dot-headed one. -/
theorem splitextExt_shape (name : List Char) :
    splitextExt name = [] ∨ ∃ e, splitextExt name = '.' :: e := by
  unfold splitextExt
  split
  · exact Or.inl rfl
  · split
    · exact Or.inr ⟨_, rfl⟩
    · exact Or.inl rfl

/-! ## Listing structure -/

theorem listItem_of_lookup {fs : FS} {d : String} {ch : List (String × FsNode)}
    (hres : resolvePath fs d = some (FsNode.dir ch))
    (hnodup : (ch.map Prod.fst).Nodup)
    {n : String} {node : FsNode} (hmem : (n, node) ∈ ch) (hgood : goodName n) :
    listItem fs d n = match node with
      | FsNode.dir _ =>
          some { name := n, path := joinStr d n, typ := "directory",
                 extension := none, size := none }
      | FsNode.file c =>
          some { name := n, path := joinStr d n, typ := "file",
                 extension := extensionField (splitextExt n.data),
                 size := (if joinStr d n ∈ fs.size_fails then none else some c.utf8ByteSize) }
      | FsNode.other => none := by
  have hlk : ch.lookup n = some node := lookup_eq_of_nodup hnodup hmem
  have hchild : resolvePath fs (joinStr d n) = some node := by
    rw [resolvePath_child hres hgood.1 hgood.2.2.2, hlk]
  unfold listItem
  cases node with
  | dir ch2 =>
    rw [if_pos (by simp [isDir, hchild])]
  | file c =>
    rw [if_neg (by simp [isDir, hchild])]
    rw [if_pos (by simp [isFile, hchild])]
    have hgs : (match getsize fs (joinStr d n) with
        | Except.ok m => some m
        | Except.error _ => none)
        = (if joinStr d n ∈ fs.size_fails then none else some c.utf8ByteSize) := by
      unfold getsize
      by_cases hsf : joinStr d n ∈ fs.size_fails
      · rw [if_pos hsf, if_pos hsf]
      · rw [if_neg hsf, if_neg hsf, hchild]
    rw [hgs]
  | other =>
    rw [if_neg (by simp [isDir, hchild])]
    rw [if_neg (by simp [isFile, hchild])]

theorem filterMap_listItem_names (fs : FS) (d : String) :
    ∀ (names : List String),
    ((names.filterMap (listItem fs d)).map (·.name))
      = names.filter (fun n => isDir fs (joinStr d n) || isFile fs (joinStr d n))
  | [] => rfl
  | n :: rest => by
    rw [List.filterMap_cons]
    cases hli : listItem fs d n with
    | none =>
      have hcond : (isDir fs (joinStr d n) || isFile fs (joinStr d n)) = false := by
        unfold listItem at hli
        by_cases hd : isDir fs (joinStr d n)
        · rw [if_pos hd] at hli
          exact absurd hli (by simp)
        · by_cases hf : isFile fs (joinStr d n)
          · rw [if_neg hd, if_pos hf] at hli
            exact absurd hli (by simp)
          · simp [hd, hf]
      show List.map (fun x => x.name) (List.filterMap (listItem fs d) rest) = _
      rw [@List.filter_cons_of_neg _ (fun m => isDir fs (joinStr d m) || isFile fs (joinStr d m)) n rest (by simp [hcond])]
      exact filterMap_listItem_names fs d rest
    | some item =>
      have hinfo : item.name = n
          ∧ (isDir fs (joinStr d n) || isFile fs (joinStr d n)) = true := by
        unfold listItem at hli
        by_cases hd : isDir fs (joinStr d n)
        · rw [if_pos hd] at hli
          injection hli with hli
          exact ⟨by rw [← hli], by simp [hd]⟩
        · by_cases hf : isFile fs (joinStr d n)
          · rw [if_neg hd, if_pos hf] at hli
            injection hli with hli
            exact ⟨by rw [← hli], by simp [hf]⟩
          · rw [if_neg hd, if_neg hf] at hli
            exact absurd hli (by simp)
      show List.map (fun x => x.name) (item :: List.filterMap (listItem fs d) rest) = _
      rw [@List.filter_cons_of_pos _ (fun m => isDir fs (joinStr d m) || isFile fs (joinStr d m)) n rest hinfo.2]
      show item.name :: List.map (fun x => x.name) (List.filterMap (listItem fs d) rest) = _
      rw [hinfo.1, filterMap_listItem_names fs d rest]

theorem countP_or_disjoint {α : Type} (p q : α → Bool) :
    ∀ (l : List α), (∀ a ∈ l, ¬(p a = true ∧ q a = true)) →
    l.countP (fun a => p a || q a) = l.countP p + l.countP q
  | [], _ => rfl
  | a :: rest, h => by
    have hrest := countP_or_disjoint p q rest
      (fun x hx => h x (List.mem_cons_of_mem a hx))
    by_cases hp : p a
    · have hq : q a = false := by
        cases hqv : q a
        · rfl
        · exact absurd ⟨hp, hqv⟩ (h a (List.mem_cons_self _ _))
      rw [List.countP_cons, List.countP_cons, List.countP_cons]
      simp [hp, hq, hrest]
      omega
    · rw [List.countP_cons, List.countP_cons, List.countP_cons]
      by_cases hq : q a
      · simp [hp, hq, hrest]
        omega
      · simp [hp, hq, hrest]

theorem isDir_resolve {fs : FS} {p : String} (h : isDir fs p = true) :
    ∃ ch, resolvePath fs p = some (FsNode.dir ch) := by
  unfold isDir at h
  cases hres : resolvePath fs p with
  | none =>
    rw [hres] at h
    exact absurd h (by simp)
  | some node =>
    cases node with
    | dir ch => exact ⟨ch, rfl⟩
    | file c =>
      rw [hres] at h
      exact absurd h (by simp)
    | other =>
      rw [hres] at h
      exact absurd h (by simp)

theorem get_file_info_ok_form {env : Env} {fs : FS} {p : String} {info : FileInfo}
    (h : get_file_info env fs p = Except.ok info) :
    info.current_path = normalize_path env p ∧
    info.items = (sortNames (listdir fs (normalize_path env p))).filterMap
      (listItem fs (normalize_path env p)) ∧
    isDir fs (normalize_path env p) = true := by
  simp only [get_file_info] at h
  split at h
  · exact absurd h (by simp)
  · rename_i hex
    split at h
    · exact absurd h (by simp)
    · rename_i hdir
      injection h with h
      subst h
      exact ⟨rfl, rfl, by simpa using hdir⟩

theorem listItem_size_fails (root : FsNode) (L : List String) (d n : String) :
    (listItem ⟨root, L⟩ d n = none ∧ listItem ⟨root, []⟩ d n = none)
    ∨ (∃ a b, listItem ⟨root, L⟩ d n = some a ∧ listItem ⟨root, []⟩ d n = some b
        ∧ itemRel L a b) := by
  unfold listItem
  by_cases hd : isDir ⟨root, L⟩ (joinStr d n)
  · have hd0 : isDir (⟨root, []⟩ : FS) (joinStr d n) = true := hd
    rw [if_pos hd, if_pos hd0]
    right
    refine ⟨_, _, rfl, rfl, rfl, rfl, rfl, rfl, ?_⟩
    simp
  · have hd0 : ¬ isDir (⟨root, []⟩ : FS) (joinStr d n) = true := hd
    rw [if_neg hd, if_neg hd0]
    by_cases hf : isFile ⟨root, L⟩ (joinStr d n)
    · have hf0 : isFile (⟨root, []⟩ : FS) (joinStr d n) = true := hf
      rw [if_pos hf, if_pos hf0]
      right
      obtain ⟨c, hres⟩ : ∃ c, resolvePath ⟨root, L⟩ (joinStr d n)
          = some (FsNode.file c) := by
        unfold isFile at hf
        cases hres : resolvePath ⟨root, L⟩ (joinStr d n) with
        | none =>
          rw [hres] at hf
          exact absurd hf (by simp)
        | some node =>
          cases node with
          | file c => exact ⟨c, rfl⟩
          | dir ch =>
            rw [hres] at hf
            exact absurd hf (by simp)
          | other =>
            rw [hres] at hf
            exact absurd hf (by simp)
      have hres0 : resolvePath ⟨root, []⟩ (joinStr d n) = some (FsNode.file c) := hres
      refine ⟨_, _, rfl, rfl, rfl, rfl, rfl, rfl, ?_⟩
      show (match getsize ⟨root, L⟩ (joinStr d n) with
          | Except.ok m => some m
          | Except.error _ => none)
        = if joinStr d n ∈ L then none
          else (match getsize ⟨root, []⟩ (joinStr d n) with
            | Except.ok m => some m
            | Except.error _ => none)
      unfold getsize
      by_cases hsf : joinStr d n ∈ L
      · have hsfL : joinStr d n ∈ (⟨root, L⟩ : FS).size_fails := hsf
        rw [if_pos hsfL, if_pos hsf]
      · have hsfL : joinStr d n ∉ (⟨root, L⟩ : FS).size_fails := hsf
        have hsf0 : joinStr d n ∉ (⟨root, []⟩ : FS).size_fails := by simp
        rw [if_neg hsfL, if_neg hsf, if_neg hsf0, hres, hres0]
    · have hf0 : ¬ isFile (⟨root, []⟩ : FS) (joinStr d n) = true := hf
      rw [if_neg hf, if_neg hf0]
      exact Or.inl ⟨rfl, rfl⟩

theorem forall2_filterMap {f g : String → Option FileItem}
    {R : FileItem → FileItem → Prop}
    (h : ∀ n, (f n = none ∧ g n = none) ∨ (∃ a b, f n = some a ∧ g n = some b ∧ R a b)) :
    ∀ (names : List String), List.Forall₂ R (names.filterMap f) (names.filterMap g)
  | [] => List.Forall₂.nil
  | n :: rest => by
    rw [List.filterMap_cons, List.filterMap_cons]
    rcases h n with ⟨h1, h2⟩ | ⟨a, b, h1, h2, hr⟩
    · rw [h1, h2]
      exact forall2_filterMap h rest
    · rw [h1, h2]
      exact List.Forall₂.cons hr (forall2_filterMap h rest)

theorem get_file_info_err_eq (env : Env) (root : FsNode) (L : List String)
    (p : String) (e : PyExc) :
    get_file_info env ⟨root, L⟩ p = Except.error e
      ↔ get_file_info env ⟨root, []⟩ p = Except.error e := by
  by_cases hex : pathExists ⟨root, L⟩ (normalize_path env p)
  · by_cases hdir : isDir ⟨root, L⟩ (normalize_path env p)
    · have h1 : ∀ (M : List String),
          get_file_info env ⟨root, M⟩ p = Except.ok
            { current_path := normalize_path env p,
              items := (sortNames (listdir ⟨root, M⟩ (normalize_path env p))).filterMap
                (listItem ⟨root, M⟩ (normalize_path env p)) } := by
        intro M
        have hexM : pathExists (⟨root, M⟩ : FS) (normalize_path env p) = true := hex
        have hdirM : isDir (⟨root, M⟩ : FS) (normalize_path env p) = true := hdir
        simp only [get_file_info]
        rw [if_neg (not_not_intro hexM), if_neg (not_not_intro hdirM)]
      rw [h1 L, h1 []]
      simp
    · have h2 : ∀ (M : List String), get_file_info env ⟨root, M⟩ p
          = Except.error (PyExc.notADirectoryError
              s!"Path is not a directory: {normalize_path env p}") := by
        intro M
        have hexM : pathExists (⟨root, M⟩ : FS) (normalize_path env p) = true := hex
        have hdirM : ¬ isDir (⟨root, M⟩ : FS) (normalize_path env p) = true := hdir
        simp only [get_file_info]
        rw [if_neg (not_not_intro hexM), if_pos hdirM]
      rw [h2 L, h2 []]
  · have h3 : ∀ (M : List String), get_file_info env ⟨root, M⟩ p
        = Except.error (PyExc.fileNotFoundError
            s!"Path does not exist: {normalize_path env p}") := by
      intro M
      have hexM : ¬ pathExists (⟨root, M⟩ : FS) (normalize_path env p) = true := hex
      simp only [get_file_info]
      rw [if_pos hexM]
    rw [h3 L, h3 []]

/-! ## Growth of the discovery sets -/

theorem foldl_discoveryStep_files {env : Env} :
    ∀ (items : List FileItem) (s : Agent) {q : String},
    q ∈ (items.foldl (discoveryStep env) s).discovered_files →
    q ∈ s.discovered_files
    ∨ ∃ item ∈ items, item.typ = "file" ∧ q = normalize_path env item.path
  | [], _, _, h => Or.inl h
  | item :: rest, s, q, h => by
    rw [List.foldl_cons] at h
    rcases foldl_discoveryStep_files rest (discoveryStep env s item) h with h2 | ⟨it, hit, ht, hq⟩
    · unfold discoveryStep at h2
      by_cases hd : item.typ = "directory"
      · rw [if_pos hd] at h2
        exact Or.inl h2
      · rw [if_neg hd] at h2
        by_cases hf : item.typ = "file"
        · rw [if_pos hf] at h2
          simp only [Finset.mem_insert] at h2
          rcases h2 with rfl | h2
          · exact Or.inr ⟨item, List.mem_cons_self _ _, hf, rfl⟩
          · exact Or.inl h2
        · rw [if_neg hf] at h2
          exact Or.inl h2
    · exact Or.inr ⟨it, List.mem_cons_of_mem item hit, ht, hq⟩

theorem foldl_discoveryStep_dirs {env : Env} :
    ∀ (items : List FileItem) (s : Agent) {q : String},
    q ∈ (items.foldl (discoveryStep env) s).discovered_dirs →
    q ∈ s.discovered_dirs
    ∨ ∃ item ∈ items, item.typ = "directory" ∧ q = normalize_path env item.path
  | [], _, _, h => Or.inl h
  | item :: rest, s, q, h => by
    rw [List.foldl_cons] at h
    rcases foldl_discoveryStep_dirs rest (discoveryStep env s item) h with h2 | ⟨it, hit, ht, hq⟩
    · unfold discoveryStep at h2
      by_cases hd : item.typ = "directory"
      · rw [if_pos hd] at h2
        simp only [Finset.mem_insert] at h2
        rcases h2 with rfl | h2
        · exact Or.inr ⟨item, List.mem_cons_self _ _, hd, rfl⟩
        · exact Or.inl h2
      · rw [if_neg hd] at h2
        by_cases hf : item.typ = "file"
        · rw [if_pos hf] at h2
          exact Or.inl h2
        · rw [if_neg hf] at h2
          exact Or.inl h2
    · exact Or.inr ⟨it, List.mem_cons_of_mem item hit, ht, hq⟩

theorem record_discovery_files {env : Env} {st : Agent} {info : FileInfo} {q : String}
    (h : q ∈ (record_discovery env st info).discovered_files) :
    q ∈ st.discovered_files
    ∨ ∃ item ∈ info.items, item.typ = "file" ∧ q = normalize_path env item.path := by
  unfold record_discovery at h
  rcases foldl_discoveryStep_files info.items _ h with h2 | h2
  · left
    by_cases hc : info.current_path ≠ ""
    · rw [if_pos hc] at h2
      exact h2
    · rw [if_neg hc] at h2
      exact h2
  · exact Or.inr h2

theorem record_discovery_dirs {env : Env} {st : Agent} {info : FileInfo} {q : String}
    (h : q ∈ (record_discovery env st info).discovered_dirs) :
    q ∈ st.discovered_dirs
    ∨ q = normalize_path env info.current_path
    ∨ ∃ item ∈ info.items, item.typ = "directory" ∧ q = normalize_path env item.path := by
  unfold record_discovery at h
  rcases foldl_discoveryStep_dirs info.items _ h with h2 | h2
  · by_cases hc : info.current_path ≠ ""
    · rw [if_pos hc] at h2
      simp only [Finset.mem_insert] at h2
      rcases h2 with rfl | h2
      · exact Or.inr (Or.inl rfl)
      · exact Or.inl h2
    · rw [if_neg hc] at h2
      exact Or.inl h2
  · exact Or.inr (Or.inr h2)

theorem record_discovery_normalized (env : Env) (hcwd : isabs env.cwd.data = true)
    {st : Agent} (info : FileInfo) (h : normalizedSets env st) :
    normalizedSets env (record_discovery env st info) := by
  constructor
  · intro q hq
    rcases record_discovery_files hq with hq2 | ⟨item, _, _, rfl⟩
    · exact h.1 q hq2
    · exact normalize_path_idem env hcwd item.path
  · intro q hq
    rcases record_discovery_dirs hq with hq2 | hq2 | ⟨item, _, _, hq3⟩
    · exact h.2 q hq2
    · rw [hq2]
      exact normalize_path_idem env hcwd info.current_path
    · rw [hq3]
      exact normalize_path_idem env hcwd item.path

theorem execute_tool_normalized (env : Env) (hcwd : isabs env.cwd.data = true)
    (st : Agent) (fs : FS) (name : String) (args : Args)
    (h : normalizedSets env st) :
    normalizedSets env (execute_tool env st fs name args).2.1 := by
  simp only [execute_tool]
  repeat' split
  all_goals
    first
      | exact h
      | exact record_discovery_normalized env hcwd _ h
      | (refine ⟨?_, h.2⟩
         intro q hq
         simp only [Finset.mem_insert] at hq
         rcases hq with rfl | hq
         · exact normalize_path_idem env hcwd _
         · exact h.1 q hq)

/-! ## Concrete session used by the witnesses -/

/-! ## The claims -/

/-- Claim C3: a `write_file` tool call made while the write-allowed flag is
false returns the structured "write not allowed" error and leaves the
filesystem and the session state (discovery sets included) unchanged,
regardless of the arguments or prior discovery state. -/
theorem C3_write_gating (env : Env) (st : Agent) (fs : FS) (args : Args)
    (h : st.allow_writes = false) :
    execute_tool env st fs "write_file" args
      = (Except.ok (ToolResult.errorWriteNotAllowed
          "Write operations are disabled. Enable allow_writes to proceed."), st, fs) := by
  unfold execute_tool
  rw [if_pos ⟨rfl, by simp [h]⟩]

theorem C3_write_gating_witness :
    execute_tool envW ({} : Agent) fsW "write_file"
        { path? := some "/x", content? := some "y" }
      = (Except.ok (ToolResult.errorWriteNotAllowed
          "Write operations are disabled. Enable allow_writes to proceed."),
        ({} : Agent), fsW) :=
  C3_write_gating envW ({} : Agent) fsW { path? := some "/x", content? := some "y" } rfl

/-- Claim C8: before normalizing, the listing handler removes exactly the
longest trailing run of characters outside the allowed set (ASCII letters,
digits, `. _ - / ~` and space), leaving every earlier character untouched;
a string ending in an allowed character passes through unchanged. -/
theorem C8_strip_trailing (s : String) :
    (∃ a b, s.data = a ++ b ∧ (stripTrailing s).data = a
      ∧ (∀ c ∈ b, ¬ allowedTailChar c)
      ∧ (a = [] ∨ ∃ h : a ≠ [], allowedTailChar (a.getLast h)))
    ∧ (∀ c, s.data.getLast? = some c → allowedTailChar c → stripTrailing s = s) := by
  have hspec : (stripTrailing s).data
      = (s.data.reverse.dropWhile (fun c => ¬ allowedTailChar c)).reverse := by
    show (stripTailAux s.length s.data) = _
    exact stripTailAux_spec s.length s.data (le_of_eq rfl)
  constructor
  · refine ⟨(s.data.reverse.dropWhile (fun c => ¬ allowedTailChar c)).reverse,
      (s.data.reverse.takeWhile (fun c => ¬ allowedTailChar c)).reverse, ?_, hspec, ?_, ?_⟩
    · conv_lhs => rw [← List.reverse_reverse s.data,
        ← List.takeWhile_append_dropWhile (fun c => ¬ allowedTailChar c) s.data.reverse]
      rw [List.reverse_append]
    · intro c hc
      rw [List.mem_reverse] at hc
      have := List.mem_takeWhile_imp hc
      simpa using this
    · cases hdw : s.data.reverse.dropWhile (fun c => ¬ allowedTailChar c) with
      | nil => exact Or.inl (by simp [hdw])
      | cons d rest =>
        right
        have hh := List.head?_dropWhile_not (fun c => ¬ allowedTailChar c) s.data.reverse
        rw [hdw] at hh
        simp only [List.head?_cons] at hh
        have hd : allowedTailChar d := by simpa using hh
        have hval : ∀ (l : List Char), l = (d :: rest).reverse →
            ∀ (hx : l ≠ []), allowedTailChar (l.getLast hx) = true := by
          rintro l rfl hx
          have hsome : ((d :: rest).reverse : List Char).getLast? = some d := by
            rw [List.reverse_cons]
            exact List.getLast?_concat _
          rw [(List.getLast_eq_iff_getLast?_eq_some hx).mpr hsome]
          exact hd
        exact ⟨by simp, hval _ rfl (by simp)⟩
  · intro c hlast hallow
    have hne : s.data ≠ [] := by
      intro e
      rw [e] at hlast
      simp at hlast
    have hrev : s.data.reverse = c :: s.data.dropLast.reverse := by
      rw [reverse_eq_getLast_cons hne,
        (List.getLast_eq_iff_getLast?_eq_some hne).mpr hlast]
    apply data_inj
    rw [hspec, hrev, List.dropWhile_cons_of_neg (by simpa using hallow), ← hrev]
    simp

theorem C8_strip_trailing_witness :
    stripTrailing "docs??" = "docs" ∧
    (∃ a b, "docs??".data = a ++ b ∧ (stripTrailing "docs??").data = a
      ∧ (∀ c ∈ b, ¬ allowedTailChar c)
      ∧ (a = [] ∨ ∃ h : a ≠ [], allowedTailChar (a.getLast h))) :=
  ⟨by decide, (C8_strip_trailing "docs??").1⟩

/-- Claim C7 (code bug): the write confirmation's number is produced by
Python `len(content)` — the code-point count — while the message claims a
byte count and the file actually receives the UTF-8 encoding.  Writing the
one-character content `"é"` stores 2 bytes but the confirmation says
`Wrote 1 bytes`. -/
theorem C7_byte_count_bug :
    write_file envW { root := FsNode.dir [] } "/a.txt" "é"
      = Except.ok ("Wrote 1 bytes to /a.txt",
          { root := FsNode.dir [("a.txt", FsNode.file "é")] })
    ∧ "é".utf8ByteSize = 2
    ∧ getsize { root := FsNode.dir [("a.txt", FsNode.file "é")] } "/a.txt"
        = Except.ok 2
    ∧ "Wrote 1 bytes to /a.txt" ≠ "Wrote 2 bytes to /a.txt" := by
  refine ⟨rfl, by decide, rfl, by decide⟩

/-- Claim C10: `normalize_path` is idempotent (the working directory the
process reads from `os.getcwd()` is always absolute), and every element
ever held by the discovered-files or discovered-directories sets of any
reachable session state is a fixed point of `normalize_path`, because every
insertion first applies it. -/
theorem C10_normalized_discovery (env : Env) (hcwd : isabs env.cwd.data = true) :
    (∀ s : String, normalize_path env (normalize_path env s) = normalize_path env s)
    ∧ (∀ st fs, Reachable env st fs →
        (∀ q ∈ st.discovered_files, normalize_path env q = q)
        ∧ (∀ q ∈ st.discovered_dirs, normalize_path env q = q)) := by
  refine ⟨normalize_path_idem env hcwd, ?_⟩
  intro st fs h
  induction h with
  | init aw fs => exact ⟨by simp, by simp⟩
  | step name args hr ih => exact execute_tool_normalized env hcwd _ _ name args ih
  | fsStep fs2 hr ih => exact ih

theorem C10_normalized_discovery_witness :
    normalize_path envW (normalize_path envW "docs") = normalize_path envW "docs"
    ∧ normalize_path envW "docs" = "/docs" :=
  ⟨(C10_normalized_discovery envW (by decide)).1 "docs", by decide⟩

/-- Claim C4 counterexample: with writes allowed, writing to the path `/`
(an existing directory) raises `IsADirectoryError` instead of succeeding,
and the immediate read of the same path returns the file-not-confirmed
error, not the written content — so the round-trip law fails for some
paths. -/
theorem C4_roundtrip_counterexample :
    execute_tool envW { allow_writes := true } fsW "write_file"
        { path? := some "/", content? := some "x" }
      = (Except.error (PyExc.isADirectoryError "Is a directory: /"),
         { allow_writes := true }, fsW)
    ∧ (execute_tool envW { allow_writes := true } fsW "read_file"
        { path? := some "/" }).1
      ≠ Except.ok (ToolResult.readOk "/" "x") := by
  refine ⟨rfl, fun h => ?_⟩
  exact ToolResult.noConfusion (Except.ok.inj h)

/-- Claim C4 (amended): with the write-allowed flag true and an absolute
working directory, whenever the `write_file` tool call succeeds, the
immediately following `read_file` call on the same path is confirmed (the
write recorded the normalized path) and returns exactly the written
content. -/
theorem C4_roundtrip (env : Env) (hcwd : isabs env.cwd.data = true)
    (st : Agent) (fs : FS) (p c : String) {msg : String} {st1 : Agent} {fs1 : FS}
    (h : execute_tool env st fs "write_file" { path? := some p, content? := some c }
        = (Except.ok (ToolResult.writeOk msg), st1, fs1)) :
    execute_tool env st1 fs1 "read_file" { path? := some p }
      = (Except.ok (ToolResult.readOk (normalize_path env p) c), st1, fs1) := by
  have hwrite : write_file env fs p c = Except.ok (msg, fs1) ∧ st1 = { st with discovered_files := insert (normalize_path env p) st.discovered_files } := by
    unfold execute_tool at h
    by_cases hgate : ("write_file" : String) = "write_file" ∧ ¬ st.allow_writes
    · rw [if_pos hgate] at h
      injection h with h1 _
      exact absurd h1 (by simp)
    · rw [if_neg hgate] at h
      rw [if_neg (by decide), if_neg (by decide), if_pos rfl] at h
      revert h
      show (match write_file env fs p c with
        | Except.ok (msg2, fs2) => (Except.ok (ToolResult.writeOk msg2), { st with discovered_files := insert (normalize_path env p) st.discovered_files }, fs2)
        | Except.error e => (Except.error e, st, fs))
          = (Except.ok (ToolResult.writeOk msg), st1, fs1) → _
      cases hw : write_file env fs p c with
      | error e =>
        intro h
        exact absurd h (by simp)
      | ok r =>
        obtain ⟨m2, f2⟩ := r
        intro h
        injection h with ha hb
        injection hb with hb1 hb2
        injection ha with ha
        injection ha with ha
        exact ⟨by rw [ha, hb2], hb1.symm⟩
  obtain ⟨hw, hst1⟩ := hwrite
  obtain ⟨hmsg, hresolved⟩ := write_file_ok hw
  have hmem : ¬ normalize_path env p ∉ st1.discovered_files := by
    rw [hst1]
    simp
  unfold execute_tool
  rw [if_neg (by simp), if_neg (by decide), if_pos rfl]
  show (if normalize_path env p ∉ st1.discovered_files then (Except.ok (ToolResult.errorFileNotConfirmed "Attempted to read a file that has not been confirmed via get_file_info." (normalize_path env p)), st1, fs1) else match read_file env fs1 (normalize_path env p) with | Except.ok content => (Except.ok (ToolResult.readOk (normalize_path env p) content), st1, fs1) | Except.error e => (Except.error e, st1, fs1)) = (Except.ok (ToolResult.readOk (normalize_path env p) c), st1, fs1)
  rw [if_neg hmem]
  rw [read_file_of_file (normalize_path_idem env hcwd p) hresolved]

theorem C4_roundtrip_witness :
    execute_tool envW
        { allow_writes := true,
          discovered_files := (insert "/notes/out.txt" ∅ : Finset String) }
        { root := FsNode.dir [("notes", FsNode.dir [("out.txt", FsNode.file "hello")])] }
        "read_file" { path? := some "/notes/out.txt" }
      = (Except.ok (ToolResult.readOk "/notes/out.txt" "hello"),
         { allow_writes := true, discovered_files := (insert "/notes/out.txt" ∅ : Finset String) },
         { root := FsNode.dir [("notes", FsNode.dir [("out.txt", FsNode.file "hello")])] }) :=
  C4_roundtrip envW (by decide) { allow_writes := true } { root := FsNode.dir [] }
    "/notes/out.txt" "hello" rfl

theorem runAux_budget (env : Env) (oracle : List Message → ModelResponse) :
    ∀ (K : Nat) (st : Agent) (fs : FS) (msgs : List Message),
      (runAux env oracle K st fs msgs).2.2.2 ≤ K
      ∧ ((∀ m, (oracle m).tool_calls ≠ []) →
          (∃ e, (runAux env oracle K st fs msgs).1 = Except.error e)
          ∨ ((runAux env oracle K st fs msgs).1 = Except.ok max_steps_message
             ∧ (runAux env oracle K st fs msgs).2.2.2 = K))
  | 0, st, fs, msgs =>
    ⟨Nat.le_refl 0, fun _ => Or.inr ⟨rfl, rfl⟩⟩
  | K + 1, st, fs, msgs => by
    simp only [runAux]
    split
    next heq =>
      exact ⟨by simp, fun hall => absurd heq (hall msgs)⟩
    next tc tcs heq =>
      split
      next u st1 fs1 msgs2 hex =>
        have hrec := runAux_budget env oracle K st1 fs1 msgs2
        refine ⟨Nat.succ_le_succ hrec.1, fun hall => ?_⟩
        cases hrec.2 hall with
        | inl herr =>
          obtain ⟨e, he⟩ := herr
          exact Or.inl ⟨e, he⟩
        | inr hok =>
          exact Or.inr ⟨hok.1, by rw [hok.2]⟩
      next e st1 fs1 m hex =>
        exact ⟨by simp, fun _ => Or.inl ⟨e, rfl⟩⟩

/-- Claim C5 (amended): for every `max_steps = K`, `Agent.run` performs at
most `K` model queries; if every model response contains tool-call requests,
the run either aborts with an uncaught tool exception or performs exactly
`K` queries and returns the fixed fallback string
"Reached max_steps without completion." instead of a model-authored
answer. -/
theorem C5_step_budget (env : Env) (oracle : List Message → ModelResponse)
    (st : Agent) (fs : FS) (user : String) (K : Nat) :
    (Agent.run env oracle st fs user K).2.2.2 ≤ K
    ∧ ((∀ m, (oracle m).tool_calls ≠ []) →
        (∃ e, (Agent.run env oracle st fs user K).1 = Except.error e)
        ∨ ((Agent.run env oracle st fs user K).1 = Except.ok max_steps_message
           ∧ (Agent.run env oracle st fs user K).2.2.2 = K)) :=
  runAux_budget env oracle K st fs [Message.system SYSTEM_PROMPT, Message.user user]

/-- Claim C5 counterexample to the original wording: an oracle that always
requests a `get_file_info` call on a file path makes every response contain
tool calls, yet the run with `max_steps = 1` terminates by raising the
uncaught `NotADirectoryError` from the tool instead of returning the fixed
fallback string. -/
theorem C5_step_budget_counterexample :
    (Agent.run envW
        (fun _ => { content := none,
                    tool_calls := [ToolCallReq.mk "1" "get_file_info"
                      (Args.mk (some "/README.md") none)] })
        { } fsW "go" 1).1
      = Except.error (PyExc.notADirectoryError "Path is not a directory: /README.md") := rfl

theorem C5_step_budget_witness :
    (Agent.run envW (fun _ => { content := none, tool_calls := [ToolCallReq.mk "1" "nop" (Args.mk none none)] })
        { } fsW "go" 2).1 = Except.ok max_steps_message
    ∧ (Agent.run envW (fun _ => { content := none, tool_calls := [ToolCallReq.mk "1" "nop" (Args.mk none none)] })
        { } fsW "go" 2).2.2.2 = 2 := by
  have h := (C5_step_budget envW (fun _ => { content := none, tool_calls := [ToolCallReq.mk "1" "nop" (Args.mk none none)] })
      { } fsW "go" 2).2 (fun m => by simp)
  cases h with
  | inl herr =>
    obtain ⟨e, he⟩ := herr
    have hco : (Agent.run envW (fun _ => { content := none, tool_calls := [ToolCallReq.mk "1" "nop" (Args.mk none none)] })
        { } fsW "go" 2).1 = Except.ok max_steps_message := rfl
    rw [hco] at he
    exact Except.noConfusion he
  | inr hok =>
    exact hok

theorem execute_tool_files_growth (env : Env) (st : Agent) (fs : FS)
    (name : String) (args : Args) (q : String)
    (hq : q ∈ (execute_tool env st fs name args).2.1.discovered_files) :
    q ∈ st.discovered_files
    ∨ (∃ info, (execute_tool env st fs name args).1 = Except.ok (ToolResult.listing info)
        ∧ ∃ item ∈ info.items, item.typ = "file" ∧ q = normalize_path env item.path)
    ∨ (∃ p c msg, name = "write_file" ∧ args.path? = some p ∧ args.content? = some c
        ∧ (execute_tool env st fs name args).1 = Except.ok (ToolResult.writeOk msg)
        ∧ q = normalize_path env p) := by
  revert hq
  rcases hres : execute_tool env st fs name args with ⟨r, st2, fs2⟩
  intro hq
  simp only [execute_tool] at hres
  by_cases hgate : name = "write_file" ∧ ¬ st.allow_writes = true
  · rw [if_pos hgate] at hres
    injection hres with h1 h2
    injection h2 with h2a h2b
    exact Or.inl (by rw [h2a]; exact hq)
  · rw [if_neg hgate] at hres
    by_cases hinfo : name = "get_file_info"
    · rw [if_pos hinfo] at hres
      cases hgi : get_file_info env fs (stripTrailing (args.path?.getD "")) with
      | ok info =>
        rw [hgi] at hres
        injection hres with h1 h2
        injection h2 with h2a h2b
        rw [← h2a] at hq
        rcases record_discovery_files hq with hmem | ⟨item, hit, ht, hqe⟩
        · exact Or.inl hmem
        · exact Or.inr (Or.inl ⟨info, by rw [← h1], item, hit, ht, hqe⟩)
      | error e =>
        cases e <;>
          (rw [hgi] at hres
           injection hres with h1 h2
           injection h2 with h2a h2b
           exact Or.inl (by rw [h2a]; exact hq))
    · rw [if_neg hinfo] at hres
      by_cases hread : name = "read_file"
      · rw [if_pos hread] at hres
        cases hp : args.path? with
        | none =>
          rw [hp] at hres
          injection hres with h1 h2
          injection h2 with h2a h2b
          exact Or.inl (by rw [h2a]; exact hq)
        | some p =>
          rw [hp] at hres
          have hres2 : (if normalize_path env p ∉ st.discovered_files then (Except.ok (ToolResult.errorFileNotConfirmed "Attempted to read a file that has not been confirmed via get_file_info." (normalize_path env p)), st, fs) else match read_file env fs (normalize_path env p) with | Except.ok content => (Except.ok (ToolResult.readOk (normalize_path env p) content), st, fs) | Except.error e => (Except.error e, st, fs)) = (r, st2, fs2) := hres
          by_cases hmem : normalize_path env p ∉ st.discovered_files
          · rw [if_pos hmem] at hres2
            injection hres2 with h1 h2
            injection h2 with h2a h2b
            exact Or.inl (by rw [h2a]; exact hq)
          · rw [if_neg hmem] at hres2
            cases hrf : read_file env fs (normalize_path env p) with
            | ok content =>
              rw [hrf] at hres2
              injection hres2 with h1 h2
              injection h2 with h2a h2b
              exact Or.inl (by rw [h2a]; exact hq)
            | error e =>
              rw [hrf] at hres2
              injection hres2 with h1 h2
              injection h2 with h2a h2b
              exact Or.inl (by rw [h2a]; exact hq)
      · rw [if_neg hread] at hres
        by_cases hwrite : name = "write_file"
        · rw [if_pos hwrite] at hres
          cases hp : args.path? with
          | none =>
            rw [hp] at hres
            injection hres with h1 h2
            injection h2 with h2a h2b
            exact Or.inl (by rw [h2a]; exact hq)
          | some p =>
            rw [hp] at hres
            cases hc : args.content? with
            | none =>
              rw [hc] at hres
              injection hres with h1 h2
              injection h2 with h2a h2b
              exact Or.inl (by rw [h2a]; exact hq)
            | some c =>
              rw [hc] at hres
              have hres3 : (match write_file env fs p c with | Except.ok (msg, fs4) => (Except.ok (ToolResult.writeOk msg), { st with discovered_files := insert (normalize_path env p) st.discovered_files }, fs4) | Except.error e => (Except.error e, st, fs)) = (r, st2, fs2) := hres
              cases hw : write_file env fs p c with
              | ok msgfs =>
                obtain ⟨msg, fs3⟩ := msgfs
                rw [hw] at hres3
                injection hres3 with h1 h2
                injection h2 with h2a h2b
                rw [← h2a] at hq
                rcases Finset.mem_insert.1 hq with hqe | hmem
                · exact Or.inr (Or.inr ⟨p, c, msg, hwrite, rfl, rfl, by rw [← h1], hqe⟩)
                · exact Or.inl hmem
              | error e =>
                rw [hw] at hres3
                injection hres3 with h1 h2
                injection h2 with h2a h2b
                exact Or.inl (by rw [h2a]; exact hq)
        · rw [if_neg hwrite] at hres
          injection hres with h1 h2
          injection h2 with h2a h2b
          exact Or.inl (by rw [h2a]; exact hq)

/-- Claim C1: session-wide discovery invariant.  (i) A read-tool call that
returns file content requires the normalized requested path to be in the
discovered-files set at that moment; (ii) a read of an unconfirmed path
returns the structured "file not confirmed" error and leaves the agent
state and the filesystem untouched; (iii) across any single routed tool
call, the discovered-files set only gains elements that appeared as
"file"-kind entries of a successful listing result or that are the
normalized target of a successful write. -/
theorem C1_discovery_invariant (env : Env) (st : Agent) (fs : FS) :
    (∀ (p pa c : String) (st2 : Agent) (fs2 : FS),
        execute_tool env st fs "read_file" { path? := some p }
          = (Except.ok (ToolResult.readOk pa c), st2, fs2) →
        normalize_path env p ∈ st.discovered_files)
    ∧ (∀ p : String, normalize_path env p ∉ st.discovered_files →
        execute_tool env st fs "read_file" { path? := some p }
          = (Except.ok (ToolResult.errorFileNotConfirmed
              "Attempted to read a file that has not been confirmed via get_file_info."
              (normalize_path env p)), st, fs))
    ∧ (∀ (name : String) (args : Args) (q : String),
        q ∈ (execute_tool env st fs name args).2.1.discovered_files →
        q ∈ st.discovered_files
        ∨ (∃ info, (execute_tool env st fs name args).1 = Except.ok (ToolResult.listing info)
            ∧ ∃ item ∈ info.items, item.typ = "file" ∧ q = normalize_path env item.path)
        ∨ (∃ p c msg, name = "write_file" ∧ args.path? = some p ∧ args.content? = some c
            ∧ (execute_tool env st fs name args).1 = Except.ok (ToolResult.writeOk msg)
            ∧ q = normalize_path env p)) := by
  refine ⟨?_, ?_, ?_⟩
  · intro p pa c st2 fs2 h
    unfold execute_tool at h
    rw [if_neg (by simp), if_neg (by decide), if_pos rfl] at h
    have h2 : (if normalize_path env p ∉ st.discovered_files then (Except.ok (ToolResult.errorFileNotConfirmed "Attempted to read a file that has not been confirmed via get_file_info." (normalize_path env p)), st, fs) else match read_file env fs (normalize_path env p) with | Except.ok content => (Except.ok (ToolResult.readOk (normalize_path env p) content), st, fs) | Except.error e => (Except.error e, st, fs)) = (Except.ok (ToolResult.readOk pa c), st2, fs2) := h
    by_cases hmem : normalize_path env p ∉ st.discovered_files
    · rw [if_pos hmem] at h2
      injection h2 with ha _
      exact ToolResult.noConfusion (Except.ok.inj ha)
    · exact not_not.1 hmem
  · intro p hmem
    unfold execute_tool
    rw [if_neg (by simp), if_neg (by decide), if_pos rfl]
    show (if normalize_path env p ∉ st.discovered_files then (Except.ok (ToolResult.errorFileNotConfirmed "Attempted to read a file that has not been confirmed via get_file_info." (normalize_path env p)), st, fs) else match read_file env fs (normalize_path env p) with | Except.ok content => (Except.ok (ToolResult.readOk (normalize_path env p) content), st, fs) | Except.error e => (Except.error e, st, fs)) = _
    rw [if_pos hmem]
  · exact fun name args q hq => execute_tool_files_growth env st fs name args q hq

theorem C1_discovery_invariant_witness :
    execute_tool envW { } fsW "read_file" { path? := some "/README.md" }
      = (Except.ok (ToolResult.errorFileNotConfirmed
          "Attempted to read a file that has not been confirmed via get_file_info."
          "/README.md"), { }, fsW) :=
  (C1_discovery_invariant envW { } fsW).2.1 "/README.md" (by decide)

theorem get_file_info_error_shape (env : Env) (fs : FS) (p : String) (e : PyExc)
    (h : get_file_info env fs p = Except.error e) :
    (∃ m, e = PyExc.fileNotFoundError m) ∨ ∃ m, e = PyExc.notADirectoryError m := by
  simp only [get_file_info] at h
  split at h
  · exact Or.inl ⟨_, (Except.error.inj h).symm⟩
  · split at h
    · exact Or.inr ⟨_, (Except.error.inj h).symm⟩
    · exact Except.noConfusion h

/-- Claim C2 (amended): the router converts to structured payloads exactly
the errors it catches.  (i) A listing request whose path lookup raises
`FileNotFoundError` yields the structured not-found payload (message,
fixed suggestion, cleaned raw path) with the session state and filesystem
untouched; (ii) the only exception that can escape the listing branch
uncaught is `NotADirectoryError` (raised when the resolved path exists but
is not a directory); (iii) a read of a confirmed path that no longer
exists raises `FileNotFoundError` uncaught; (iv) a read of a confirmed
path that now resolves to a non-file raises `IsADirectoryError` uncaught;
(v) a call with an unknown tool name yields the structured unknown-tool
payload.  So read-time filesystem errors and the listing of an existing
non-directory path escape the router, and total error capture does not
hold. -/
theorem C2_error_capture (env : Env) (st : Agent) (fs : FS) :
    (∀ (args : Args) (m : String),
        get_file_info env fs (stripTrailing (args.path?.getD "")) = Except.error (PyExc.fileNotFoundError m) →
        execute_tool env st fs "get_file_info" args
          = (Except.ok (ToolResult.errorNotFound m
              "The requested path does not exist. Please verify the path and try again."
              (stripTrailing (args.path?.getD ""))), st, fs))
    ∧ (∀ (args : Args) (e : PyExc),
        (execute_tool env st fs "get_file_info" args).1 = Except.error e →
        ∃ m, e = PyExc.notADirectoryError m)
    ∧ (∀ p : String, isabs env.cwd.data = true →
        normalize_path env p ∈ st.discovered_files →
        pathExists fs (normalize_path env p) = false →
        execute_tool env st fs "read_file" { path? := some p }
          = (Except.error (PyExc.fileNotFoundError
              s!"File does not exist: {normalize_path env p}"), st, fs))
    ∧ (∀ p : String, isabs env.cwd.data = true →
        normalize_path env p ∈ st.discovered_files →
        pathExists fs (normalize_path env p) = true →
        isFile fs (normalize_path env p) = false →
        execute_tool env st fs "read_file" { path? := some p }
          = (Except.error (PyExc.isADirectoryError
              s!"Not a file: {normalize_path env p}"), st, fs))
    ∧ (∀ (name : String) (args : Args),
        name ≠ "get_file_info" → name ≠ "read_file" → name ≠ "write_file" →
        execute_tool env st fs name args = (Except.ok ToolResult.errorUnknownTool, st, fs)) := by
  refine ⟨?_, ?_, ?_, ?_, ?_⟩
  · intro args m heq
    unfold execute_tool
    rw [if_neg (by simp), if_pos rfl]
    show (match get_file_info env fs (stripTrailing (args.path?.getD "")) with
      | Except.ok info => (Except.ok (ToolResult.listing info), record_discovery env st info, fs)
      | Except.error (PyExc.fileNotFoundError m) => (Except.ok (ToolResult.errorNotFound m "The requested path does not exist. Please verify the path and try again." (stripTrailing (args.path?.getD ""))), st, fs)
      | Except.error e => (Except.error e, st, fs))
      = (Except.ok (ToolResult.errorNotFound m "The requested path does not exist. Please verify the path and try again." (stripTrailing (args.path?.getD ""))), st, fs)
    rw [heq]
  · intro args e h
    unfold execute_tool at h
    rw [if_neg (by simp), if_pos rfl] at h
    have h2 : (match get_file_info env fs (stripTrailing (args.path?.getD "")) with
      | Except.ok info => (Except.ok (ToolResult.listing info), record_discovery env st info, fs)
      | Except.error (PyExc.fileNotFoundError m) => (Except.ok (ToolResult.errorNotFound m "The requested path does not exist. Please verify the path and try again." (stripTrailing (args.path?.getD ""))), st, fs)
      | Except.error e => (Except.error e, st, fs)).1 = Except.error e := h
    cases hgi : get_file_info env fs (stripTrailing (args.path?.getD "")) with
    | ok info =>
      rw [hgi] at h2
      exact Except.noConfusion h2
    | error ex =>
      rcases get_file_info_error_shape env fs (stripTrailing (args.path?.getD "")) ex hgi with ⟨m, hm⟩ | ⟨m, hm⟩
      · subst hm
        rw [hgi] at h2
        exact Except.noConfusion h2
      · subst hm
        rw [hgi] at h2
        exact ⟨m, (Except.error.inj h2).symm⟩
  · intro p hcwd hmem hex
    have hidem := normalize_path_idem env hcwd p
    have hrf : read_file env fs (normalize_path env p) = Except.error (PyExc.fileNotFoundError s!"File does not exist: {normalize_path env p}") := by
      unfold read_file
      rw [hidem, if_pos (by simp [hex])]
    unfold execute_tool
    rw [if_neg (by simp), if_neg (by decide), if_pos rfl]
    show (if normalize_path env p ∉ st.discovered_files then (Except.ok (ToolResult.errorFileNotConfirmed "Attempted to read a file that has not been confirmed via get_file_info." (normalize_path env p)), st, fs) else match read_file env fs (normalize_path env p) with | Except.ok content => (Except.ok (ToolResult.readOk (normalize_path env p) content), st, fs) | Except.error e => (Except.error e, st, fs)) = _
    rw [if_neg (by simp [hmem]), hrf]
  · intro p hcwd hmem hex hfile
    have hidem := normalize_path_idem env hcwd p
    have hrf : read_file env fs (normalize_path env p) = Except.error (PyExc.isADirectoryError s!"Not a file: {normalize_path env p}") := by
      unfold read_file
      rw [hidem, if_neg (by simp [hex]), if_pos (by simp [hfile])]
    unfold execute_tool
    rw [if_neg (by simp), if_neg (by decide), if_pos rfl]
    show (if normalize_path env p ∉ st.discovered_files then (Except.ok (ToolResult.errorFileNotConfirmed "Attempted to read a file that has not been confirmed via get_file_info." (normalize_path env p)), st, fs) else match read_file env fs (normalize_path env p) with | Except.ok content => (Except.ok (ToolResult.readOk (normalize_path env p) content), st, fs) | Except.error e => (Except.error e, st, fs)) = _
    rw [if_neg (by simp [hmem]), hrf]
  · intro name args hg hr hw
    unfold execute_tool
    rw [if_neg (fun hcon => hw hcon.1), if_neg hg, if_neg hr, if_neg hw]

theorem C2_error_capture_counterexample :
    (execute_tool envW { } fsW "get_file_info" { path? := some "/README.md" }).1
      = Except.error (PyExc.notADirectoryError "Path is not a directory: /README.md") := rfl

theorem C2_error_capture_witness :
    execute_tool envW { } fsW "get_file_info" { path? := some "/nope" }
      = (Except.ok (ToolResult.errorNotFound "Path does not exist: /nope"
          "The requested path does not exist. Please verify the path and try again."
          "/nope"), { }, fsW)
    ∧ execute_tool envW
        { allow_writes := false, discovered_files := (insert "/gone" ∅ : Finset String) }
        fsW "read_file" { path? := some "/gone" }
      = (Except.error (PyExc.fileNotFoundError "File does not exist: /gone"),
         { allow_writes := false, discovered_files := (insert "/gone" ∅ : Finset String) }, fsW)
    ∧ execute_tool envW
        { allow_writes := false, discovered_files := (insert "/docs" ∅ : Finset String) }
        fsW "read_file" { path? := some "/docs" }
      = (Except.error (PyExc.isADirectoryError "Not a file: /docs"),
         { allow_writes := false, discovered_files := (insert "/docs" ∅ : Finset String) }, fsW) :=
  ⟨(C2_error_capture envW { } fsW).1 { path? := some "/nope" } "Path does not exist: /nope" rfl,
   (C2_error_capture envW
       { allow_writes := false, discovered_files := (insert "/gone" ∅ : Finset String) } fsW).2.2.1
     "/gone" (by decide) (by decide) rfl,
   (C2_error_capture envW
       { allow_writes := false, discovered_files := (insert "/docs" ∅ : Finset String) } fsW).2.2.2.1
     "/docs" (by decide) (by decide) rfl rfl⟩

theorem child_kind {fs : FS} {q : String} {node : FsNode}
    (hchild : resolvePath fs q = some node) :
    isDir fs q = isDirNode node ∧ isFile fs q = isFileNode node := by
  unfold isDir isFile
  rw [hchild]
  cases node <;> simp [isDirNode, isFileNode]

/-- Claim C6: listing an existing directory returns one entry per regular
file or subdirectory child (others are skipped), sorted by name, with the
correct kind tag; each entry's path joins the listed directory with the
name; directory entries carry no extension and no size; file entries carry
the `splitext` extension without its leading dot, or none when the name has
no extension; and every file or directory child appears in the result. -/
theorem C6_listing_contents (env : Env) (fs : FS) (p : String) (info : FileInfo)
    (ch : List (String × FsNode))
    (hok : get_file_info env fs p = Except.ok info)
    (hres : resolvePath fs (normalize_path env p) = some (FsNode.dir ch))
    (hwf : dirWF ch) :
    info.current_path = normalize_path env p
    ∧ info.items.length
        = ch.countP (fun e => isFileNode e.2) + ch.countP (fun e => isDirNode e.2)
    ∧ (info.items.map (·.name)).Pairwise nameLe
    ∧ (∀ item ∈ info.items, ∃ node, (item.name, node) ∈ ch
        ∧ item.path = joinStr (normalize_path env p) item.name
        ∧ (((∃ ch2, node = FsNode.dir ch2) ∧ item.typ = "directory"
              ∧ item.extension = none ∧ item.size = none)
           ∨ ((∃ c, node = FsNode.file c) ∧ item.typ = "file"
              ∧ ((splitextExt item.name.data = [] ∧ item.extension = none)
                 ∨ ∃ ex, splitextExt item.name.data = '.' :: ex
                     ∧ item.extension = some (String.mk ex)))))
    ∧ (∀ (n : String) (node : FsNode), (n, node) ∈ ch →
        (isFileNode node || isDirNode node) = true →
        ∃ item ∈ info.items, item.name = n) := by
  obtain ⟨hcur, hitems, hdir⟩ := get_file_info_ok_form hok
  have hnames : listdir fs (normalize_path env p) = ch.map Prod.fst := by
    unfold listdir
    rw [hres]
  have hchild : ∀ e ∈ ch, resolvePath fs (joinStr (normalize_path env p) e.1) = some e.2 := by
    intro e he
    have hgood := hwf.2 e he
    have hlk : ch.lookup e.1 = some e.2 := lookup_eq_of_nodup hwf.1 (by simpa using he)
    rw [resolvePath_child hres hgood.1 hgood.2.2.2, hlk]
  have hmapn : info.items.map (·.name)
      = (sortNames (listdir fs (normalize_path env p))).filter
          (fun n => isDir fs (joinStr (normalize_path env p) n)
            || isFile fs (joinStr (normalize_path env p) n)) := by
    rw [hitems]
    exact filterMap_listItem_names fs (normalize_path env p) _
  refine ⟨hcur, ?_, ?_, ?_, ?_⟩
  · have h1 : info.items.length = (info.items.map (·.name)).length :=
      (List.length_map _ _).symm
    rw [h1, hmapn, ← List.countP_eq_length_filter]
    rw [(sortNames_perm _).countP_eq]
    rw [hnames, List.countP_map]
    have hcongr : (ch.map Prod.fst).countP
        (fun n => isDir fs (joinStr (normalize_path env p) n)
          || isFile fs (joinStr (normalize_path env p) n))
        = ch.countP (fun e => isDirNode e.2 || isFileNode e.2) := by
      rw [List.countP_map]
      refine List.countP_congr (fun e he => ?_)
      have hk := child_kind (hchild e he)
      simp only [Function.comp]
      rw [hk.1, hk.2]
    rw [← List.countP_map, hcongr]
    rw [countP_or_disjoint (fun e => isDirNode e.2) (fun e => isFileNode e.2) ch
      (fun a ha => by cases hv : a.2 <;> simp [isDirNode, isFileNode, hv])]
    exact Nat.add_comm _ _
  · rw [hmapn]
    exact (sortNames_sorted _).filter _
  · intro item hmemi
    rw [hitems] at hmemi
    obtain ⟨n, hn, hli⟩ := List.mem_filterMap.1 hmemi
    have hnch : n ∈ ch.map Prod.fst := by
      have h1 := (sortNames_perm _).mem_iff.1 hn
      rw [hnames] at h1
      exact h1
    obtain ⟨e, he, hefst⟩ := List.mem_map.1 hnch
    obtain ⟨n', node⟩ := e
    have hefst' : n = n' := hefst.symm
    subst hefst'
    have hgood : goodName n := hwf.2 (n, node) he
    have hform := listItem_of_lookup hres hwf.1 he hgood
    rw [hform] at hli
    cases node with
    | dir ch2 =>
      injection hli with hli
      subst hli
      exact ⟨FsNode.dir ch2, he, rfl, Or.inl ⟨⟨ch2, rfl⟩, rfl, rfl, rfl⟩⟩
    | file c =>
      injection hli with hli
      subst hli
      refine ⟨FsNode.file c, he, rfl, Or.inr ⟨⟨c, rfl⟩, rfl, ?_⟩⟩
      rcases splitextExt_shape n.data with hsh | ⟨ex, hsh⟩
      · exact Or.inl ⟨hsh, by show extensionField (splitextExt n.data) = none; rw [hsh]; rfl⟩
      · exact Or.inr ⟨ex, hsh, by show extensionField (splitextExt n.data) = some (String.mk ex); rw [hsh]; rfl⟩
    | other =>
      exact Option.noConfusion hli
  · intro n node hmem hk
    have hgood := hwf.2 (n, node) hmem
    have hform := listItem_of_lookup hres hwf.1 hmem hgood
    have hn : n ∈ sortNames (listdir fs (normalize_path env p)) := by
      rw [(sortNames_perm _).mem_iff, hnames]
      exact List.mem_map.2 ⟨(n, node), hmem, rfl⟩
    cases node with
    | dir ch2 =>
      refine ⟨{ name := n, path := joinStr (normalize_path env p) n, typ := "directory", extension := none, size := none }, ?_, rfl⟩
      rw [hitems]
      exact List.mem_filterMap.2 ⟨n, hn, hform⟩
    | file c =>
      refine ⟨{ name := n, path := joinStr (normalize_path env p) n, typ := "file", extension := extensionField (splitextExt n.data), size := if joinStr (normalize_path env p) n ∈ fs.size_fails then none else some c.utf8ByteSize }, ?_, rfl⟩
      rw [hitems]
      exact List.mem_filterMap.2 ⟨n, hn, hform⟩
    | other =>
      simp [isFileNode, isDirNode] at hk

theorem C6_listing_contents_witness :
    infoW.current_path = normalize_path envW "."
    ∧ infoW.items.length
        = chW.countP (fun e => isFileNode e.2) + chW.countP (fun e => isDirNode e.2) := by
  have h := C6_listing_contents envW fsW "." infoW chW rfl rfl ⟨by decide, by decide⟩
  exact ⟨h.1, h.2.1⟩

/-- Claim C9: size-retrieval failures degrade gracefully.  Whether the
listing errors is independent of which paths fail a size query, and a
successful listing over failure set `L` matches the failure-free listing
entry for entry — identical name, path, kind and extension — except that an
entry whose path is in `L` has its size recorded as absent. -/
theorem C9_size_failure_degradation (env : Env) (root : FsNode) (L : List String) (p : String) :
    (∀ e : PyExc, get_file_info env ⟨root, L⟩ p = Except.error e
        ↔ get_file_info env ⟨root, []⟩ p = Except.error e)
    ∧ (∀ info, get_file_info env ⟨root, L⟩ p = Except.ok info →
        ∃ info₀, get_file_info env ⟨root, []⟩ p = Except.ok info₀
          ∧ info.current_path = info₀.current_path
          ∧ List.Forall₂ (itemRel L) info.items info₀.items) := by
  refine ⟨fun e => get_file_info_err_eq env root L p e, ?_⟩
  intro info h
  obtain ⟨hcur, hitems, hdir⟩ := get_file_info_ok_form h
  have hdir0 : isDir (⟨root, []⟩ : FS) (normalize_path env p) = true := hdir
  have hex0 : pathExists (⟨root, []⟩ : FS) (normalize_path env p) = true := by
    obtain ⟨ch, hch⟩ := isDir_resolve hdir0
    unfold pathExists
    rw [hch]
    rfl
  refine ⟨{ current_path := normalize_path env p, items := (sortNames (listdir ⟨root, []⟩ (normalize_path env p))).filterMap (listItem ⟨root, []⟩ (normalize_path env p)) }, ?_, ?_, ?_⟩
  · simp only [get_file_info]
    rw [if_neg (by simp [hex0]), if_neg (by simp [hdir0])]
  · rw [hcur]
  · rw [hitems]
    have hld : listdir (⟨root, L⟩ : FS) (normalize_path env p) = listdir (⟨root, []⟩ : FS) (normalize_path env p) := rfl
    rw [hld]
    exact forall2_filterMap (fun n => listItem_size_fails root L (normalize_path env p) n) _

theorem C9_size_failure_degradation_witness :
    ∃ info₀, get_file_info envW ⟨rootW9, []⟩ "." = Except.ok info₀
      ∧ infoW9.current_path = info₀.current_path
      ∧ List.Forall₂ (itemRel ["/a.txt"]) infoW9.items info₀.items :=
  (C9_size_failure_degradation envW rootW9 ["/a.txt"] ".").2 infoW9 rfl
